import Mathlib

/-!
Verification development for the path-addressed mutation engine of
`use-react-hook-form-persist` (`src/internal/deep-copy.ts`): the three
operations `getIn`, `setIn`, `deleteIn` over nested objects/arrays addressed
by dot-separated path strings.

Modelling conventions (shallow embedding of the TypeScript source):

* JavaScript values are modelled by `JVal`.  Objects are finite association
  lists of own enumerable string-keyed properties (the prototype chain and
  exotic properties such as an array's `length` are not part of the data
  model: the engine only ever stores and reads caller data).  Arrays carry
  an element list (`JVal.undef` marks a hole) together with an association
  list for their non-index string properties, since the source can store
  properties such as `"-1"` or `"foo"` on an array.
* `undefined` is the value `JVal.undef`; property access on a value that has
  no such property yields `JVal.undef`, as in JavaScript.
* JavaScript numbers are idealised as exact integers (`Int`).  On dot-free
  strings of at most 15 characters that do not contain `e` this matches
  float64 exactly: such numerals are below `2^53`, so `ToNumber` is exact
  and `Number::toString` prints plain decimal digits.  Outside that
  fragment the model diverges from the source in two known families:
  exponent-form canonical strings such as `"1e+21"` (real `ToNumber` reads
  them as numbers and `Number::toString` prints magnitudes of `10^21` and
  above exponentially, so the source classifies them as index segments,
  while the model parses them to `NaN` and classifies them as key
  segments), and canonical integers of `2^53` and above such as
  `"9007199254740993"` (float64 rounding makes the source classify them as
  key segments, while the unbounded-integer model accepts them).  The
  classification theorem below is therefore stated on the faithful
  fragment only, and no other result depends on which strings the
  classifier accepts.
* The modules of the package are ES modules, hence strict mode: assigning a
  property to a primitive (or to `null`/`undefined`) raises a `TypeError`.
  `setIn`'s outcome is therefore a value together with an optional error.
* In-place mutation is modelled functionally: recursion returns the updated
  child and the caller re-installs it in the slot it was read from, which is
  exactly what mutation through the alias achieves on tree-shaped data.
  The one place where the source breaks the alias — `setIn`'s final-segment
  index case reassigns the local `current` to a fresh `[]` — is modelled by
  returning the node unchanged and recording the lost write in a `dropped`
  flag.
-/

/-- Result of JavaScript `ToNumber` on a dot-free string, with numbers
idealised as exact integers. -/
inductive JsNum where
  | nan
  | inf
  | negInf
  | int (n : Int)
deriving DecidableEq

/-- Numeric value of a decimal digit character, `none` on anything else. -/
def digit? (c : Char) : Option Nat :=
  if '0' ≤ c ∧ c ≤ '9' then some (c.toNat - '0'.toNat) else none

/-- Left fold accumulating a decimal number, failing on a non-digit. -/
def parseNatCore (cs : List Char) : Option Nat :=
  cs.foldl (fun acc c =>
    match acc, digit? c with
    | some a, some d => some (10 * a + d)
    | _, _ => none) (some 0)

/-- Parse a nonempty all-digit character list as a natural number. -/
def parseNat (cs : List Char) : Option Nat :=
  match cs with
  | [] => none
  | _ => parseNatCore cs

/-- Decimal digits of `n`, most significant first (fuelled so that the
definition is structural and kernel-reducible; the fuel `n + 1` always
suffices). -/
def natDigitsAux : Nat → Nat → List Char
  | 0, _ => []
  | fuel + 1, n =>
    if n < 10 then [Nat.digitChar n]
    else natDigitsAux fuel (n / 10) ++ [Nat.digitChar (n % 10)]

/-- Canonical decimal digit string of a natural number. -/
def natDigits (n : Nat) : List Char := natDigitsAux (n + 1) n

/-- Canonical decimal string of a natural number. -/
def natToStr (n : Nat) : String := ⟨natDigits n⟩

/-- Model of JavaScript `ToNumber` restricted to dot-free strings, with
exact integer arithmetic: the empty string is `0`, the `Infinity` forms are
infinities, an optionally signed digit string is an integer, everything
else — including hex and exponent literals — is `NaN`.  For fractional and
hex literals the re-stringification test below fails in JavaScript as well,
so `isIndex` agrees with the source on those; exponent literals such as
`"1e+21"` are the exception: real `ToNumber` reads them as numbers, so on
those the model's `isIndex` diverges from the source (see the fidelity
discussion in the module header). -/
def jsToNumber (s : String) : JsNum :=
  if s = "" then .int 0
  else if s = "Infinity" then .inf
  else if s = "+Infinity" then .inf
  else if s = "-Infinity" then .negInf
  else
    match s.data with
    | '+' :: cs => (parseNat cs).elim JsNum.nan fun m => .int m
    | '-' :: cs => (parseNat cs).elim JsNum.nan fun m => .int (-(m : Int))
    | cs => (parseNat cs).elim JsNum.nan fun m => .int m

/-- Model of JavaScript `String` on a number, with exact integer arithmetic
and plain decimal output.  Real `Number::toString` prints magnitudes of
`10^21` and above in exponential notation and rounds integers of `2^53` and
above to float64; the model is exact below `2^53`, in particular on every
numeral of at most 15 digits. -/
def jsNumToString : JsNum → String
  | .nan => "NaN"
  | .inf => "Infinity"
  | .negInf => "-Infinity"
  | .int n => if n < 0 then "-" ++ natToStr n.natAbs else natToStr n.natAbs

/-- Source: `const isIndex = (s: string) => String(+s) === s;`  Composed of
the two models above, this is faithful to the source on dot-free segments
of at most 15 characters containing no `e`; the module header describes the
two divergent families outside that fragment (exponent-form canonical
strings, and canonical integers of `2^53` and above). -/
def isIndex (s : String) : Bool := jsNumToString (jsToNumber s) == s

/-- Spec-side classifier, following the specification's words: a segment is
an index segment iff it is the canonical decimal-string representation of a
non-negative integer (re-stringifying the parsed integer reproduces the
segment exactly). -/
def specIndexSeg (s : String) : Bool :=
  match parseNat s.data with
  | some n => natToStr n == s
  | none => false

/-- JavaScript array-index test for a property key: the canonical decimal
representation of an integer `i` with `0 ≤ i < 2^32 - 1`. -/
def toArrIdx (s : String) : Option Nat :=
  match parseNat s.data with
  | some n => if natToStr n == s ∧ n < 4294967295 then some n else none
  | none => none

section ParsePrintLemmas

theorem digit?_digitChar {d : Nat} (h : d < 10) :
    digit? (Nat.digitChar d) = some d := by
  interval_cases d <;> decide

theorem parseNatCore_append (xs ys : List Char) :
    parseNatCore (xs ++ ys) =
      ys.foldl (fun acc c =>
        match acc, digit? c with
        | some a, some d => some (10 * a + d)
        | _, _ => none) (parseNatCore xs) := by
  simp [parseNatCore, List.foldl_append]

theorem natDigitsAux_ne_nil {fuel n : Nat} (h : n < fuel) :
    natDigitsAux fuel n ≠ [] := by
  cases fuel with
  | zero => omega
  | succ f =>
    by_cases h10 : n < 10 <;> simp [natDigitsAux, h10]

theorem parseNatCore_natDigitsAux {fuel n : Nat} (h : n < fuel) :
    parseNatCore (natDigitsAux fuel n) = some n := by
  induction fuel generalizing n with
  | zero => omega
  | succ f ih =>
    by_cases h10 : n < 10
    · simp [natDigitsAux, h10, parseNatCore, digit?_digitChar h10]
    · have hdiv : n / 10 < n := Nat.div_lt_self (by omega) (by omega)
      have hf : n / 10 < f := by omega
      simp only [natDigitsAux, h10, if_false, parseNatCore_append, ih hf]
      simp [digit?_digitChar (Nat.mod_lt n (by omega : (0:Nat) < 10)),
        Nat.div_add_mod]

theorem parseNat_natDigits (n : Nat) : parseNat (natDigits n) = some n := by
  have hne := natDigitsAux_ne_nil (Nat.lt_succ_self n)
  unfold parseNat natDigits
  split
  · exact absurd (by assumption) hne
  · exact parseNatCore_natDigitsAux (Nat.lt_succ_self n)

theorem mem_natDigitsAux_isDigit {fuel n : Nat} (h : n < fuel) :
    ∀ c ∈ natDigitsAux fuel n, '0' ≤ c ∧ c ≤ '9' := by
  induction fuel generalizing n with
  | zero => omega
  | succ f ih =>
    intro c hc
    by_cases h10 : n < 10
    · simp [natDigitsAux, h10] at hc
      subst hc
      interval_cases n <;> decide
    · have hf : n / 10 < f := by
        have := Nat.div_lt_self (show 0 < n by omega) (show 1 < 10 by omega)
        omega
      simp only [natDigitsAux, h10, if_false, List.mem_append,
        List.mem_singleton] at hc
      rcases hc with hc | hc
      · exact ih hf c hc
      · subst hc
        have : n % 10 < 10 := Nat.mod_lt n (by omega)
        interval_cases h : n % 10 <;> decide

theorem mem_natDigits_isDigit (n : Nat) :
    ∀ c ∈ natDigits n, '0' ≤ c ∧ c ≤ '9' :=
  mem_natDigitsAux_isDigit (Nat.lt_succ_self n)

end ParsePrintLemmas

/-- JavaScript values as manipulated by the engine.  `undef` is
`undefined`; an array hole is an `undef` element.  Arrays carry their
non-index string properties in `props`. -/
inductive JVal where
  | null
  | undef
  | bool (b : Bool)
  | num (n : Int)
  | str (s : String)
  | arr (elts : List JVal) (props : List (String × JVal))
  | obj (props : List (String × JVal))

namespace JVal

/-- The JavaScript test `v == null` (true for `null` and `undefined`). -/
def isNullish : JVal → Bool
  | .null | .undef => true
  | _ => false

/-- JavaScript truthiness. -/
def truthy : JVal → Bool
  | .null | .undef => false
  | .bool b => b
  | .num n => n != 0
  | .str s => s != ""
  | .arr _ _ => true
  | .obj _ => true

/-- `Array.isArray`. -/
def isArrB : JVal → Bool
  | .arr _ _ => true
  | _ => false

/-- The JavaScript test `typeof v === "object" && v !== null`. -/
def isContainer : JVal → Bool
  | .arr _ _ => true
  | .obj _ => true
  | _ => false

end JVal

/-- Look up a key in a property list; an absent key reads as `undefined`. -/
def lookupProp (ps : List (String × JVal)) (k : String) : JVal :=
  match ps with
  | [] => .undef
  | (k', v) :: t => if k' = k then v else lookupProp t k

/-- Write a key in a property list: replace the existing entry in place, or
append a new one (JavaScript insertion-order semantics). -/
def setProp (ps : List (String × JVal)) (k : String) (v : JVal) :
    List (String × JVal) :=
  match ps with
  | [] => [(k, v)]
  | (k', v') :: t => if k' = k then (k', v) :: t else (k', v') :: setProp t k v

/-- The `delete` operator on a property list. -/
def delProp (ps : List (String × JVal)) (k : String) : List (String × JVal) :=
  ps.filter (fun e => e.1 ≠ k)

/-- Read array element `i`; out of range or a hole reads as `undefined`. -/
def getElt : List JVal → Nat → JVal
  | [], _ => .undef
  | e :: _, 0 => e
  | _ :: t, i + 1 => getElt t i

/-- Write array element `i`, extending the array with holes when `i` is
beyond the current length (JavaScript assignment past the end). -/
def setElt : List JVal → Nat → JVal → List JVal
  | [], 0, v => [v]
  | [], i + 1, v => .undef :: setElt [] i v
  | _ :: t, 0, v => v :: t
  | e :: t, i + 1, v => e :: setElt t i v

/-- The `delete` operator on an array slot: leaves a hole, never shifts, and
is a no-op past the end of the array. -/
def delElt : List JVal → Nat → List JVal
  | [], _ => []
  | _ :: t, 0 => .undef :: t
  | e :: t, i + 1 => e :: delElt t i

/-- Property read `v[k]` (for a string key `k`; an index segment accesses
the same key, since by definition of `isIndex` the numeric conversion
re-stringifies to the segment itself).  Reads on primitives yield
`undefined`. -/
def jvGetKey : JVal → String → JVal
  | .arr es ps, k =>
    match toArrIdx k with
    | some i => getElt es i
    | none => lookupProp ps k
  | .obj ps, k => lookupProp ps k
  | _, _ => JVal.undef

/-- Property write `v[k] = x`: `none` models the strict-mode `TypeError`
raised when the receiver is a primitive, `null` or `undefined`. -/
def jvSetKey : JVal → String → JVal → Option JVal
  | .arr es ps, k, v =>
    some (match toArrIdx k with
      | some i => .arr (setElt es i v) ps
      | none => .arr es (setProp ps k v))
  | .obj ps, k, v => some (.obj (setProp ps k v))
  | _, _, _ => none

/-- Total property write, used to re-install a recursively updated child
into the slot it was read from (the functional image of mutation through
the alias); on a non-container receiver it is the identity. -/
def jvSetKeyT (n : JVal) (k : String) (v : JVal) : JVal :=
  (jvSetKey n k v).getD n

/-- The `delete` operator `delete v[k]`. -/
def jvDelKey : JVal → String → JVal
  | .arr es ps, k =>
    match toArrIdx k with
    | some i => .arr (delElt es i) ps
    | none => .arr es (delProp ps k)
  | .obj ps, k => .obj (delProp ps k)
  | n, _ => n

/-- Split a character list on `'.'`, mirroring JavaScript
`p.split(".")`: the result is always nonempty, the empty string splits to
`[""]`, adjacent dots produce empty segments. -/
def splitSegs : List Char → List (List Char)
  | [] => [[]]
  | c :: rest =>
    match splitSegs rest with
    | [] => [[]]
    | seg :: segs => if c = '.' then [] :: seg :: segs else (c :: seg) :: segs

/-- Source: `const splitPath = (p: string) => p.split(".");` -/
def splitPath (p : String) : List String :=
  (splitSegs p.data).map fun cs => ⟨cs⟩

/-- Walk of `getIn`: at each segment, a nullish current value short-circuits
to `undefined`, otherwise step into the property named by the segment. -/
def getLoop : List String → JVal → JVal
  | [], cur => cur
  | seg :: rest, cur =>
    if cur.isNullish then .undef else getLoop rest (jvGetKey cur seg)

/-- Source `getIn`: get a nested value by path. -/
def getIn (obj : JVal) (path : String) : JVal := getLoop (splitPath path) obj

/-- Error message of the structural-conflict `throw` in `setIn`. -/
def conflictMsg : String := "setIn: expected array container"

/-- Error message modelling the strict-mode `TypeError` on a property write
whose receiver is a primitive, `null` or `undefined`. -/
def typeErrorMsg : String := "TypeError: cannot write a property of a leaf"

/-- Outcome of `setIn`: the (possibly partially) updated value, the raised
error if any, and whether the final write landed in the discarded local
array of the final-segment index case (`current = []` rebinds the local, so
the value is written into an array that is unreachable from the root). -/
structure SetRes where
  node : JVal
  err : Option String
  dropped : Bool

/-- Recursive form of `setIn`'s segment loop.  Branch by branch this mirrors
the source: at the final segment an index write requires an array (otherwise
the write goes into a discarded fresh array) and a key write requires an
object receiver (otherwise strict mode raises); at a non-final segment an
index segment requires an array (else the explicit `throw`), a falsy slot is
replaced by a fresh container whose kind is chosen by looking ahead at the
next segment, and the walk descends into the slot. -/
def setGo (value : JVal) : List String → JVal → SetRes
  | [], node => ⟨node, none, false⟩
  | [seg], node =>
    if isIndex seg then
      match node with
      | .arr es ps => ⟨jvSetKeyT (.arr es ps) seg value, none, false⟩
      | _ => ⟨node, none, true⟩
    else
      match jvSetKey node seg value with
      | some n => ⟨n, none, false⟩
      | none => ⟨node, some typeErrorMsg, false⟩
  | seg :: seg2 :: rest, node =>
    if isIndex seg then
      match node with
      | .arr es ps =>
        let child := jvGetKey (.arr es ps) seg
        if child.truthy then
          let r := setGo value (seg2 :: rest) child
          ⟨jvSetKeyT (.arr es ps) seg r.node, r.err, r.dropped⟩
        else
          let fresh : JVal := if isIndex seg2 then .arr [] [] else .obj []
          let r := setGo value (seg2 :: rest) fresh
          ⟨jvSetKeyT (.arr es ps) seg r.node, r.err, r.dropped⟩
      | _ => ⟨node, some conflictMsg, false⟩
    else
      let child := jvGetKey node seg
      if child.truthy then
        let r := setGo value (seg2 :: rest) child
        ⟨jvSetKeyT node seg r.node, r.err, r.dropped⟩
      else if node.isContainer then
        let fresh : JVal := if isIndex seg2 then .arr [] [] else .obj []
        let r := setGo value (seg2 :: rest) fresh
        ⟨jvSetKeyT node seg r.node, r.err, r.dropped⟩
      else ⟨node, some typeErrorMsg, false⟩

/-- Source `setIn`: set a nested value by path. -/
def setIn (target : JVal) (path : String) (value : JVal) : SetRes :=
  setGo value (splitPath path) target

/-- The emptiness report returned at the end of every `deleteNode` call on a
non-nullish node: `false` for a sequence (sequences are never reported
empty), zero own properties for a mapping, `false` for a leaf. -/
def emptinessFlag : JVal → Bool
  | .arr _ _ => false
  | .obj ps => ps.isEmpty
  | _ => false

/-- The child projection used by `deleteNode` on a non-final segment: an
index segment reads the slot only from an array (anything else projects to
`undefined`), a key segment reads the property from any object. -/
def delProj (node : JVal) (seg : String) : JVal :=
  if isIndex seg then
    match node with
    | .arr es ps => jvGetKey (.arr es ps) seg
    | _ => .undef
  else if node.isContainer then jvGetKey node seg else JVal.undef

/-- The prune test of `deleteNode`: the re-read child is truthy, an object,
not an array, and has zero own properties — i.e. it is an empty mapping. -/
def isEmptyObjB : JVal → Bool
  | .obj ps => ps.isEmpty
  | _ => false

/-- Source `deleteNode`: returns the node after in-place deletions together
with the emptiness report.  A nullish node reports the subtree as already
empty.  At the final segment the addressed slot is removed; at a non-final
segment the walk recurses into the projected child, re-installs it, and
prunes the child when the recursion reported empty and the re-read child is
an empty mapping. -/
def delNode : List String → JVal → JVal × Bool
  | [], node =>
    if node.isNullish then (node, true) else (node, emptinessFlag node)
  | [seg], node =>
    if node.isNullish then (node, true)
    else
      let n := if node.isContainer then jvDelKey node seg else node
      (n, emptinessFlag n)
  | seg :: seg2 :: rest, node =>
    if node.isNullish then (node, true)
    else
      let next := delProj node seg
      let r := delNode (seg2 :: rest) next
      let node1 := if next.isNullish then node else jvSetKeyT node seg r.1
      let node2 :=
        if r.2 && isEmptyObjB (jvGetKey node1 seg) then jvDelKey node1 seg
        else node1
      (node2, emptinessFlag node2)

/-- Source `deleteIn`: delete a nested value by path; the second component
is the boolean the source returns. -/
def deleteIn (obj : JVal) (path : String) : JVal × Bool :=
  delNode (splitPath path) obj

section KeyOpLemmas

theorem lookupProp_setProp_self (ps : List (String × JVal)) (k : String)
    (v : JVal) : lookupProp (setProp ps k v) k = v := by
  induction ps with
  | nil => simp [setProp, lookupProp]
  | cons e t ih =>
    by_cases h : e.1 = k <;> simp [setProp, lookupProp, h, ih]

theorem setProp_same {ps : List (String × JVal)} {k : String} {v : JVal}
    (h : lookupProp ps k = v) (hv : v ≠ .undef) : setProp ps k v = ps := by
  induction ps with
  | nil => exact absurd h.symm hv
  | cons e t ih =>
    obtain ⟨k', v'⟩ := e
    by_cases he : k' = k
    · subst he
      simp [lookupProp] at h
      simp [setProp, ← h]
    · simp [lookupProp, he] at h
      simp [setProp, he, ih h]

theorem lookupProp_delProp_self (ps : List (String × JVal)) (k : String) :
    lookupProp (delProp ps k) k = .undef := by
  induction ps with
  | nil => simp [delProp, lookupProp]
  | cons e t ih =>
    by_cases h : e.1 = k <;>
      simp_all [delProp, lookupProp, h, List.filter_cons]

theorem delProp_delProp (ps : List (String × JVal)) (k : String) :
    delProp (delProp ps k) k = delProp ps k := by
  induction ps with
  | nil => simp [delProp]
  | cons e t ih =>
    by_cases h : e.1 = k <;>
      simp_all [delProp, List.filter_cons]

theorem getElt_setElt_self (es : List JVal) (i : Nat) (v : JVal) :
    getElt (setElt es i v) i = v := by
  induction es generalizing i with
  | nil =>
    induction i with
    | zero => simp [setElt, getElt]
    | succ j ih => simpa [setElt, getElt] using ih
  | cons e t ih =>
    cases i with
    | zero => simp [setElt, getElt]
    | succ j => simp [setElt, getElt, ih]

theorem setElt_same {es : List JVal} {i : Nat} {v : JVal}
    (h : getElt es i = v) (hv : v ≠ .undef) : setElt es i v = es := by
  induction es generalizing i with
  | nil => exact absurd h.symm hv
  | cons e t ih =>
    cases i with
    | zero => simp [getElt] at h; simp [setElt, ← h]
    | succ j => simp [getElt] at h; simp [setElt, ih h]

theorem getElt_delElt_self (es : List JVal) (i : Nat) :
    getElt (delElt es i) i = .undef := by
  induction es generalizing i with
  | nil => simp [delElt, getElt]
  | cons e t ih =>
    cases i with
    | zero => simp [delElt, getElt]
    | succ j => simp [delElt, getElt, ih]

theorem delElt_delElt (es : List JVal) (i : Nat) :
    delElt (delElt es i) i = delElt es i := by
  induction es generalizing i with
  | nil => simp [delElt]
  | cons e t ih =>
    cases i with
    | zero => simp [delElt]
    | succ j => simp [delElt, ih]

theorem jvGetKey_jvSetKeyT {n : JVal} (h : n.isContainer = true)
    (k : String) (v : JVal) : jvGetKey (jvSetKeyT n k v) k = v := by
  cases n with
  | arr es ps =>
    cases hIdx : toArrIdx k with
    | some i =>
      simp [jvSetKeyT, jvSetKey, jvGetKey, hIdx, getElt_setElt_self]
    | none =>
      simp [jvSetKeyT, jvSetKey, jvGetKey, hIdx, lookupProp_setProp_self]
  | obj ps =>
    simp [jvSetKeyT, jvSetKey, jvGetKey, lookupProp_setProp_self]
  | null => simp [JVal.isContainer] at h
  | undef => simp [JVal.isContainer] at h
  | bool b => simp [JVal.isContainer] at h
  | num m => simp [JVal.isContainer] at h
  | str s => simp [JVal.isContainer] at h

theorem jvSetKeyT_same {n : JVal} {k : String} {v : JVal}
    (h : jvGetKey n k = v) (hv : v ≠ .undef) : jvSetKeyT n k v = n := by
  cases n with
  | arr es ps =>
    cases hIdx : toArrIdx k with
    | some i =>
      simp only [jvGetKey, hIdx] at h
      simp [jvSetKeyT, jvSetKey, hIdx, setElt_same h hv]
    | none =>
      simp only [jvGetKey, hIdx] at h
      simp [jvSetKeyT, jvSetKey, hIdx, setProp_same h hv]
  | obj ps =>
    simp only [jvGetKey] at h
    simp [jvSetKeyT, jvSetKey, setProp_same h hv]
  | null => simp [jvGetKey] at h; exact absurd h.symm hv
  | undef => simp [jvGetKey] at h; exact absurd h.symm hv
  | bool b => simp [jvGetKey] at h; exact absurd h.symm hv
  | num m => simp [jvGetKey] at h; exact absurd h.symm hv
  | str s => simp [jvGetKey] at h; exact absurd h.symm hv

theorem jvGetKey_jvDelKey (n : JVal) (k : String) :
    jvGetKey (jvDelKey n k) k = .undef := by
  cases n with
  | arr es ps =>
    cases hIdx : toArrIdx k with
    | some i => simp [jvDelKey, jvGetKey, hIdx, getElt_delElt_self]
    | none => simp [jvDelKey, jvGetKey, hIdx, lookupProp_delProp_self]
  | obj ps => simp [jvDelKey, jvGetKey, lookupProp_delProp_self]
  | null => simp [jvDelKey, jvGetKey]
  | undef => simp [jvDelKey, jvGetKey]
  | bool b => simp [jvDelKey, jvGetKey]
  | num m => simp [jvDelKey, jvGetKey]
  | str s => simp [jvDelKey, jvGetKey]

theorem jvDelKey_jvDelKey (n : JVal) (k : String) :
    jvDelKey (jvDelKey n k) k = jvDelKey n k := by
  cases n with
  | arr es ps =>
    cases hIdx : toArrIdx k with
    | some i => simp [jvDelKey, hIdx, delElt_delElt]
    | none => simp [jvDelKey, hIdx, delProp_delProp]
  | obj ps => simp [jvDelKey, delProp_delProp]
  | null => simp [jvDelKey]
  | undef => simp [jvDelKey]
  | bool b => simp [jvDelKey]
  | num m => simp [jvDelKey]
  | str s => simp [jvDelKey]

theorem isArrB_jvSetKeyT (n : JVal) (k : String) (v : JVal) :
    (jvSetKeyT n k v).isArrB = n.isArrB := by
  cases n <;> simp [jvSetKeyT, jvSetKey, JVal.isArrB] <;>
    cases toArrIdx k <;> simp [JVal.isArrB]

theorem isContainer_jvSetKeyT (n : JVal) (k : String) (v : JVal) :
    (jvSetKeyT n k v).isContainer = n.isContainer := by
  cases n <;> simp [jvSetKeyT, jvSetKey, JVal.isContainer] <;>
    cases toArrIdx k <;> simp [JVal.isContainer]

theorem isNullish_jvSetKeyT (n : JVal) (k : String) (v : JVal) :
    (jvSetKeyT n k v).isNullish = n.isNullish := by
  cases n <;> simp [jvSetKeyT, jvSetKey, JVal.isNullish] <;>
    cases toArrIdx k <;> simp [JVal.isNullish]

theorem isArrB_jvDelKey (n : JVal) (k : String) :
    (jvDelKey n k).isArrB = n.isArrB := by
  cases n <;> simp [jvDelKey, JVal.isArrB] <;>
    cases toArrIdx k <;> simp [JVal.isArrB]

theorem isContainer_jvDelKey (n : JVal) (k : String) :
    (jvDelKey n k).isContainer = n.isContainer := by
  cases n <;> simp [jvDelKey, JVal.isContainer] <;>
    cases toArrIdx k <;> simp [JVal.isContainer]

theorem isNullish_jvDelKey (n : JVal) (k : String) :
    (jvDelKey n k).isNullish = n.isNullish := by
  cases n <;> simp [jvDelKey, JVal.isNullish] <;>
    cases toArrIdx k <;> simp [JVal.isNullish]

theorem emptinessFlag_of_isEmptyObjB {n : JVal} (h : isEmptyObjB n = true) :
    emptinessFlag n = true := by
  cases n <;> simp_all [isEmptyObjB, emptinessFlag]

theorem emptinessFlag_and_isEmptyObjB (n : JVal) :
    (emptinessFlag n && isEmptyObjB n) = isEmptyObjB n := by
  cases n <;> simp [isEmptyObjB, emptinessFlag, Bool.and_self]

theorem delProj_eq_jvGetKey_of_not_nullish {n : JVal} {s : String}
    (h : (delProj n s).isNullish = false) : delProj n s = jvGetKey n s := by
  unfold delProj at *
  by_cases hIdx : isIndex s
  · cases n <;> simp_all [JVal.isNullish]
  · cases n <;> simp_all [JVal.isNullish, JVal.isContainer]

theorem delProj_undef_of_not_container {n : JVal} {s : String}
    (h : n.isContainer = false) : delProj n s = .undef := by
  unfold delProj
  by_cases hIdx : isIndex s
  · cases n <;> simp_all [JVal.isContainer]
  · cases n <;> simp_all [JVal.isContainer]

theorem jvGetKey_undef_of_not_container {n : JVal} {s : String}
    (h : n.isContainer = false) : jvGetKey n s = .undef := by
  cases n <;> simp_all [jvGetKey, JVal.isContainer]

end KeyOpLemmas


section DelNodeLemmas

theorem delNode_nullish {node : JVal} (h : node.isNullish = true)
    (segs : List String) : delNode segs node = (node, true) := by
  match segs with
  | [] => simp [delNode, h]
  | [s] => simp [delNode, h]
  | s :: s2 :: t => simp [delNode, h]

theorem delNode_flag (segs : List String) (node : JVal)
    (h : node.isNullish = false) :
    (delNode segs node).2 = emptinessFlag (delNode segs node).1 := by
  match segs with
  | [] => simp [delNode, h]
  | [s] => simp [delNode, h]
  | s :: s2 :: t => simp [delNode, h]

theorem isArrB_delNode (segs : List String) (node : JVal) :
    (delNode segs node).1.isArrB = node.isArrB := by
  by_cases h : node.isNullish = true
  · simp [delNode_nullish h]
  · simp only [Bool.not_eq_true] at h
    match segs with
    | [] => simp [delNode, h]
    | [s] =>
      simp only [delNode, h, Bool.false_eq_true, if_false]
      split_ifs <;> simp [isArrB_jvDelKey]
    | s :: s2 :: t =>
      simp only [delNode, h, Bool.false_eq_true, if_false]
      split_ifs <;> simp [isArrB_jvDelKey, isArrB_jvSetKeyT]

theorem isContainer_delNode (segs : List String) (node : JVal) :
    (delNode segs node).1.isContainer = node.isContainer := by
  by_cases h : node.isNullish = true
  · simp [delNode_nullish h]
  · simp only [Bool.not_eq_true] at h
    match segs with
    | [] => simp [delNode, h]
    | [s] =>
      simp only [delNode, h, Bool.false_eq_true, if_false]
      split_ifs <;> simp [isContainer_jvDelKey]
    | s :: s2 :: t =>
      simp only [delNode, h, Bool.false_eq_true, if_false]
      split_ifs <;> simp [isContainer_jvDelKey, isContainer_jvSetKeyT]

theorem isNullish_delNode (segs : List String) (node : JVal) :
    (delNode segs node).1.isNullish = node.isNullish := by
  by_cases h : node.isNullish = true
  · simp [delNode_nullish h]
  · simp only [Bool.not_eq_true] at h
    match segs with
    | [] => simp [delNode, h]
    | [s] =>
      simp only [delNode, h, Bool.false_eq_true, if_false]
      split_ifs <;> simp [isNullish_jvDelKey, h]
    | s :: s2 :: t =>
      simp only [delNode, h, Bool.false_eq_true, if_false]
      split_ifs <;> simp [isNullish_jvDelKey, isNullish_jvSetKeyT, h]

theorem delNode_not_container {node : JVal} (segs : List String)
    (hn : node.isNullish = false) (hc : node.isContainer = false) :
    (delNode segs node).1 = node := by
  match segs with
  | [] => simp [delNode, hn]
  | [s] => simp [delNode, hn, hc]
  | s :: s2 :: t =>
    have hproj : delProj node s = .undef := delProj_undef_of_not_container hc
    have hget : jvGetKey node s = .undef := jvGetKey_undef_of_not_container hc
    simp only [delNode, hn, Bool.false_eq_true, if_false, hproj]
    simp [JVal.isNullish, hget, isEmptyObjB]

end DelNodeLemmas

section DeleteIdempotence

theorem delNode_cons_eq (s s2 : String) (t : List String) (node : JVal)
    (hn : node.isNullish = false) :
    delNode (s :: s2 :: t) node =
      (let next := delProj node s
       let r := delNode (s2 :: t) next
       let node1 := if next.isNullish then node else jvSetKeyT node s r.1
       let node2 :=
         if r.2 && isEmptyObjB (jvGetKey node1 s) then jvDelKey node1 s
         else node1
       (node2, emptinessFlag node2)) := by
  simp [delNode, hn]

theorem delProj_jvDelKey (n : JVal) (k : String) :
    delProj (jvDelKey n k) k = .undef := by
  unfold delProj
  by_cases hIdx : isIndex k
  · simp only [hIdx, if_true]
    cases n with
    | arr es ps =>
      cases h : toArrIdx k with
      | some i => simp [jvDelKey, h, jvGetKey, getElt_delElt_self]
      | none => simp [jvDelKey, h, jvGetKey, lookupProp_delProp_self]
    | obj ps => simp [jvDelKey]
    | null => simp [jvDelKey]
    | undef => simp [jvDelKey]
    | bool b => simp [jvDelKey]
    | num m => simp [jvDelKey]
    | str s => simp [jvDelKey]
  · simp only [hIdx, if_false]
    by_cases hc : (jvDelKey n k).isContainer = true
    · simp [hc, jvGetKey_jvDelKey]
    · simp [hc]

theorem isArrB_of_delProj_index {n : JVal} {s : String}
    (hIdx : isIndex s = true) (h : (delProj n s).isNullish = false) :
    n.isArrB = true := by
  cases n <;> simp_all [delProj, JVal.isNullish, JVal.isArrB]

theorem ne_undef_of_not_nullish {n : JVal} (h : n.isNullish = false) :
    n ≠ .undef := by
  intro he; subst he; simp [JVal.isNullish] at h

theorem isContainer_of_delProj_not_nullish {n : JVal} {s : String}
    (h : (delProj n s).isNullish = false) : n.isContainer = true := by
  by_cases hc : n.isContainer = true
  · exact hc
  · rw [delProj_undef_of_not_container (by simpa using hc)] at h
    simp [JVal.isNullish] at h

theorem delProj_eq_jvGetKey_of_arr {n : JVal} (s : String)
    (h : n.isArrB = true) : delProj n s = jvGetKey n s := by
  cases n <;> simp_all [delProj, JVal.isArrB, JVal.isContainer]

theorem delProj_eq_jvGetKey_of_key {n : JVal} {s : String}
    (hIdx : isIndex s = false) (h : n.isContainer = true) :
    delProj n s = jvGetKey n s := by
  simp [delProj, hIdx, h]

theorem delNode_idem (segs : List String) (node : JVal) :
    (delNode segs (delNode segs node).1).1 = (delNode segs node).1 := by
  induction segs generalizing node with
  | nil =>
    by_cases h : node.isNullish = true <;> simp [delNode, h]
  | cons s t ih =>
    cases t with
    | nil =>
      by_cases h : node.isNullish = true
      · simp [delNode_nullish h]
      · simp only [Bool.not_eq_true] at h
        by_cases hc : node.isContainer = true
        · have h1 : (delNode [s] node).1 = jvDelKey node s := by
            simp [delNode, h, hc]
          have hn1 : (jvDelKey node s).isNullish = false := by
            rw [isNullish_jvDelKey]; exact h
          have hc1 : (jvDelKey node s).isContainer = true := by
            rw [isContainer_jvDelKey]; exact hc
          rw [h1]
          simp [delNode, hn1, hc1, jvDelKey_jvDelKey]
        · have h1 : (delNode [s] node).1 = node := by
            simp [delNode, h, hc]
          rw [h1]
          simp [delNode, h, hc]
    | cons s2 t2 =>
      by_cases hn : node.isNullish = true
      · simp [delNode_nullish hn]
      · simp only [Bool.not_eq_true] at hn
        rw [delNode_cons_eq s s2 t2 node hn]
        simp only []
        by_cases hA : (delProj node s).isNullish = true
        · -- the projected child is nullish: the recursion is trivial
          rw [delNode_nullish hA]
          simp only [hA, if_true, Bool.true_and]
          by_cases hE : isEmptyObjB (jvGetKey node s) = true
          · -- the re-read empty mapping is pruned; the second run sees a
            -- missing slot and leaves everything alone
            simp only [hE, if_true]
            have hn2 : (jvDelKey node s).isNullish = false := by
              rw [isNullish_jvDelKey]; exact hn
            rw [delNode_cons_eq s s2 t2 _ hn2]
            simp only [delProj_jvDelKey]
            rw [delNode_nullish (by simp [JVal.isNullish])]
            simp [JVal.isNullish, jvGetKey_jvDelKey, isEmptyObjB,
              emptinessFlag]
          · -- nothing is pruned and the node is unchanged; the second run
            -- repeats the same trivial computation
            simp only [hE, Bool.false_eq_true, if_false]
            rw [delNode_cons_eq s s2 t2 node hn]
            simp only [delNode_nullish hA, hA, if_true, Bool.true_and, hE,
              Bool.false_eq_true, if_false]
        · -- the projected child is a real value
          simp only [Bool.not_eq_true] at hA
          have hcont : node.isContainer = true :=
            isContainer_of_delProj_not_nullish hA
          have hflag : (delNode (s2 :: t2) (delProj node s)).2
              = emptinessFlag (delNode (s2 :: t2) (delProj node s)).1 :=
            delNode_flag _ _ hA
          have hnull1 :
              (delNode (s2 :: t2) (delProj node s)).1.isNullish = false := by
            rw [isNullish_delNode]; exact hA
          have hnode1get :
              jvGetKey
                (jvSetKeyT node s (delNode (s2 :: t2) (delProj node s)).1) s
              = (delNode (s2 :: t2) (delProj node s)).1 :=
            jvGetKey_jvSetKeyT hcont s _
          simp only [hA, Bool.false_eq_true, if_false, hflag, hnode1get]
          rw [emptinessFlag_and_isEmptyObjB]
          by_cases hE :
              isEmptyObjB (delNode (s2 :: t2) (delProj node s)).1 = true
          · -- the updated child is an empty mapping: it is pruned, and the
            -- second run sees a missing slot
            simp only [hE, if_true]
            have hn2 :
                (jvDelKey
                  (jvSetKeyT node s (delNode (s2 :: t2) (delProj node s)).1)
                  s).isNullish = false := by
              rw [isNullish_jvDelKey, isNullish_jvSetKeyT]; exact hn
            rw [delNode_cons_eq s s2 t2 _ hn2]
            simp only [delProj_jvDelKey]
            rw [delNode_nullish (by simp [JVal.isNullish])]
            simp [JVal.isNullish, jvGetKey_jvDelKey, isEmptyObjB]
          · -- the updated child is kept; the second run recomputes the same
            -- child (induction hypothesis) and changes nothing
            simp only [hE, Bool.false_eq_true, if_false]
            have hn2 :
                (jvSetKeyT node s
                  (delNode (s2 :: t2) (delProj node s)).1).isNullish
                  = false := by
              rw [isNullish_jvSetKeyT]; exact hn
            rw [delNode_cons_eq s s2 t2 _ hn2]
            have hproj2 :
                delProj
                  (jvSetKeyT node s (delNode (s2 :: t2) (delProj node s)).1)
                  s
                = (delNode (s2 :: t2) (delProj node s)).1 := by
              by_cases hIdx : isIndex s = true
              · rw [delProj_eq_jvGetKey_of_arr s
                  (by rw [isArrB_jvSetKeyT]
                      exact isArrB_of_delProj_index hIdx hA)]
                exact hnode1get
              · rw [delProj_eq_jvGetKey_of_key (by simpa using hIdx)
                  (by rw [isContainer_jvSetKeyT]; exact hcont)]
                exact hnode1get
            rw [hproj2]
            simp only [hnull1, Bool.false_eq_true, if_false]
            have hflag2 :=
              delNode_flag (s2 :: t2)
                (delNode (s2 :: t2) (delProj node s)).1 hnull1
            have hidem := ih (delProj node s)
            rw [hflag2, hidem]
            have hsame :
                jvSetKeyT
                  (jvSetKeyT node s (delNode (s2 :: t2) (delProj node s)).1)
                  s (delNode (s2 :: t2) (delProj node s)).1
                = jvSetKeyT node s (delNode (s2 :: t2) (delProj node s)).1 :=
              jvSetKeyT_same hnode1get (ne_undef_of_not_nullish hnull1)
            rw [hsame, hnode1get, emptinessFlag_and_isEmptyObjB]
            have hE2 :
                isEmptyObjB (delNode (s2 :: t2) (delProj node s)).1
                  = false := by simpa using hE
            simp only [hE2, Bool.false_eq_true, if_false]

end DeleteIdempotence

section SetRoundtrip

theorem isContainer_of_jvSetKey {n : JVal} {k : String} {v m : JVal}
    (h : jvSetKey n k v = some m) : n.isContainer = true := by
  cases n <;> simp_all [jvSetKey, JVal.isContainer]

theorem jvSetKeyT_of_jvSetKey {n : JVal} {k : String} {v m : JVal}
    (h : jvSetKey n k v = some m) : jvSetKeyT n k v = m := by
  simp [jvSetKeyT, h]

theorem truthy_false_of_not_container {n : JVal} {s : String}
    (h : n.isContainer = false) : (jvGetKey n s).truthy = false := by
  rw [jvGetKey_undef_of_not_container h]; rfl

theorem jvGetKey_empty_arr (s : String) :
    jvGetKey (.arr [] []) s = .undef := by
  cases h : toArrIdx s with
  | some i => cases i <;> simp [jvGetKey, h, getElt]
  | none => simp [jvGetKey, h, lookupProp]

theorem jvGetKey_empty_obj (s : String) :
    jvGetKey (.obj []) s = .undef := by
  simp [jvGetKey, lookupProp]

theorem setGo_fresh_ok (v : JVal) (rest : List String) :
    ∀ s2 : String,
      (setGo v (s2 :: rest)
        (if isIndex s2 then .arr [] [] else .obj [])).err = none ∧
      (setGo v (s2 :: rest)
        (if isIndex s2 then .arr [] [] else .obj [])).dropped = false := by
  induction rest with
  | nil =>
    intro s2
    by_cases hIdx : isIndex s2
    · simp [setGo, hIdx]
    · simp [setGo, hIdx, jvSetKey]
  | cons s3 t ih =>
    intro s2
    by_cases hIdx : isIndex s2
    · simp only [hIdx, if_true, setGo, jvGetKey_empty_arr, JVal.truthy,
        Bool.false_eq_true, if_false]
      exact ih s3
    · simp only [hIdx, Bool.false_eq_true, if_false, setGo,
        jvGetKey_empty_obj, JVal.truthy, JVal.isContainer, if_true]
      exact ih s3

theorem setGo_roundtrip (segs : List String) :
    ∀ (node v : JVal), segs ≠ [] →
      (setGo v segs node).err = none →
      (setGo v segs node).dropped = false →
      getLoop segs (setGo v segs node).node = v := by
  induction segs with
  | nil => intro node v h; exact absurd rfl h
  | cons s t ih =>
    cases t with
    | nil =>
      intro node v _ herr hdrop
      by_cases hIdx : isIndex s = true
      · cases node with
        | arr es ps =>
          simp only [setGo, hIdx, if_true]
          have hnn : (jvSetKeyT (.arr es ps) s v).isNullish = false := by
            rw [isNullish_jvSetKeyT]; rfl
          simp [getLoop, hnn,
            jvGetKey_jvSetKeyT (show (JVal.arr es ps).isContainer = true
              from rfl)]
        | obj ps => simp [setGo, hIdx] at hdrop
        | null => simp [setGo, hIdx] at hdrop
        | undef => simp [setGo, hIdx] at hdrop
        | bool b => simp [setGo, hIdx] at hdrop
        | num m => simp [setGo, hIdx] at hdrop
        | str s3 => simp [setGo, hIdx] at hdrop
      · have hIdx2 : isIndex s = false := by simpa using hIdx
        cases hset : jvSetKey node s v with
        | none => simp [setGo, hIdx2, hset] at herr
        | some m =>
          have hcont := isContainer_of_jvSetKey hset
          have hnn : m.isNullish = false := by
            rw [← jvSetKeyT_of_jvSetKey hset, isNullish_jvSetKeyT]
            cases node <;> simp_all [JVal.isContainer, JVal.isNullish]
          simp only [setGo, hIdx2, Bool.false_eq_true, if_false, hset]
          rw [← jvSetKeyT_of_jvSetKey hset] at hnn ⊢
          simp [getLoop, hnn, jvGetKey_jvSetKeyT hcont]
    | cons s2 t2 =>
      intro node v _ herr hdrop
      have hne : s2 :: t2 ≠ [] := by simp
      by_cases hIdx : isIndex s = true
      · cases node with
        | arr es ps =>
          by_cases ht : (jvGetKey (.arr es ps) s).truthy = true
          · simp only [setGo, hIdx, if_true, ht] at herr hdrop ⊢
            have hnn :
                (jvSetKeyT (.arr es ps) s
                  (setGo v (s2 :: t2) (jvGetKey (.arr es ps) s)).node
                  ).isNullish = false := by
              rw [isNullish_jvSetKeyT]; rfl
            rw [getLoop, if_neg (by simp [hnn]),
              jvGetKey_jvSetKeyT (show (JVal.arr es ps).isContainer = true
                from rfl)]
            exact ih _ v hne herr hdrop
          · simp only [setGo, hIdx, if_true, ht, Bool.false_eq_true,
              if_false] at herr hdrop ⊢
            have hnn :
                (jvSetKeyT (.arr es ps) s
                  (setGo v (s2 :: t2)
                    (if isIndex s2 then .arr [] [] else .obj [])).node
                  ).isNullish = false := by
              rw [isNullish_jvSetKeyT]; rfl
            rw [getLoop, if_neg (by simp [hnn]),
              jvGetKey_jvSetKeyT (show (JVal.arr es ps).isContainer = true
                from rfl)]
            exact ih _ v hne herr hdrop
        | obj ps => simp [setGo, hIdx] at herr
        | null => simp [setGo, hIdx] at herr
        | undef => simp [setGo, hIdx] at herr
        | bool b => simp [setGo, hIdx] at herr
        | num m => simp [setGo, hIdx] at herr
        | str s3 => simp [setGo, hIdx] at herr
      · have hIdx2 : isIndex s = false := by simpa using hIdx
        by_cases ht : (jvGetKey node s).truthy = true
        · have hcont : node.isContainer = true := by
            by_cases hc : node.isContainer = true
            · exact hc
            · rw [truthy_false_of_not_container (by simpa using hc)] at ht
              exact absurd ht (by simp)
          simp only [setGo, hIdx2, Bool.false_eq_true, if_false, ht,
            if_true] at herr hdrop ⊢
          have hnn :
              (jvSetKeyT node s
                (setGo v (s2 :: t2) (jvGetKey node s)).node).isNullish
                = false := by
            rw [isNullish_jvSetKeyT]
            cases node <;> simp_all [JVal.isContainer, JVal.isNullish]
          rw [getLoop, if_neg (by simp [hnn]), jvGetKey_jvSetKeyT hcont]
          exact ih _ v hne herr hdrop
        · by_cases hcont : node.isContainer = true
          · have ht2 : (jvGetKey node s).truthy = false := by simpa using ht
            simp only [setGo, hIdx2, Bool.false_eq_true, if_false, ht2,
              hcont, if_true] at herr hdrop ⊢
            have hnn :
                (jvSetKeyT node s
                  (setGo v (s2 :: t2)
                    (if isIndex s2 then .arr [] [] else .obj [])).node
                  ).isNullish = false := by
              rw [isNullish_jvSetKeyT]
              cases node <;> simp_all [JVal.isContainer, JVal.isNullish]
            rw [getLoop, if_neg (by simp [hnn]), jvGetKey_jvSetKeyT hcont]
            exact ih _ v hne herr hdrop
          · have ht2 : (jvGetKey node s).truthy = false := by simpa using ht
            have hcont2 : node.isContainer = false := by simpa using hcont
            simp [setGo, hIdx2, ht2, hcont2] at herr

end SetRoundtrip

section SetErrorCharacterisation

/-- Spec-side error classifier for a write, following the specification's
walk description: at a non-final index segment the current container must
already be a sequence (otherwise the structural-conflict error), at any
property write the receiver must not be a leaf (otherwise the strict-mode
type error); a missing or falsy slot is auto-vivified with a fresh
container, and a walk that enters freshly created containers can no longer
fail, so the classifier reports no error there.  A final index segment
never raises (a non-sequence receiver silently drops the write instead).
Unlike the implementation this classifier carries no value and performs no
mutation: the theorem relating the two shows the raising behaviour of
`setIn` depends only on the pre-existing shape of the data and the path. -/
def specSetErr : List String → JVal → Option String
  | [], _ => none
  | [seg], cur =>
    if isIndex seg then none
    else if cur.isContainer then none
    else some typeErrorMsg
  | seg :: seg2 :: rest, cur =>
    if isIndex seg then
      if cur.isArrB then
        if (jvGetKey cur seg).truthy then
          specSetErr (seg2 :: rest) (jvGetKey cur seg)
        else none
      else some conflictMsg
    else
      if cur.isContainer then
        if (jvGetKey cur seg).truthy then
          specSetErr (seg2 :: rest) (jvGetKey cur seg)
        else none
      else some typeErrorMsg

theorem ne_undef_of_truthy {n : JVal} (h : n.truthy = true) :
    n ≠ .undef := by
  intro he; subst he; simp [JVal.truthy] at h

theorem setGo_err_spec (segs : List String) :
    ∀ (node v : JVal),
      (setGo v segs node).err = specSetErr segs node ∧
      ((setGo v segs node).err ≠ none → (setGo v segs node).node = node) := by
  induction segs with
  | nil => intro node v; simp [setGo, specSetErr]
  | cons s t ih =>
    cases t with
    | nil =>
      intro node v
      by_cases hIdx : isIndex s = true
      · constructor
        · cases node <;> simp [setGo, specSetErr, hIdx]
        · cases node <;> simp [setGo, hIdx]
      · have hIdx2 : isIndex s = false := by simpa using hIdx
        cases hset : jvSetKey node s v with
        | none =>
          have hcont : node.isContainer = false := by
            cases node <;> simp_all [jvSetKey, JVal.isContainer]
          simp [setGo, specSetErr, hIdx2, hset, hcont]
        | some m =>
          have hcont := isContainer_of_jvSetKey hset
          simp [setGo, specSetErr, hIdx2, hset, hcont]
    | cons s2 t2 =>
      intro node v
      by_cases hIdx : isIndex s = true
      · cases node with
        | arr es ps =>
          by_cases ht : (jvGetKey (.arr es ps) s).truthy = true
          · simp only [setGo, hIdx, if_true, ht, specSetErr, JVal.isArrB]
            refine ⟨(ih _ v).1, fun hne => ?_⟩
            rw [(ih _ v).2 hne]
            exact jvSetKeyT_same rfl (ne_undef_of_truthy ht)
          · have ht2 : (jvGetKey (.arr es ps) s).truthy = false := by
              simpa using ht
            simp only [setGo, hIdx, if_true, ht2, Bool.false_eq_true,
              if_false, specSetErr, JVal.isArrB]
            have hf := setGo_fresh_ok v t2 s2
            simp [hf.1]
        | obj ps => simp [setGo, specSetErr, hIdx, JVal.isArrB,
            JVal.isContainer, jvGetKey, conflictMsg, typeErrorMsg]
        | null => simp [setGo, specSetErr, hIdx, JVal.isArrB]
        | undef => simp [setGo, specSetErr, hIdx, JVal.isArrB]
        | bool b => simp [setGo, specSetErr, hIdx, JVal.isArrB]
        | num m => simp [setGo, specSetErr, hIdx, JVal.isArrB]
        | str s3 => simp [setGo, specSetErr, hIdx, JVal.isArrB]
      · have hIdx2 : isIndex s = false := by simpa using hIdx
        by_cases ht : (jvGetKey node s).truthy = true
        · have hcont : node.isContainer = true := by
            by_cases hc : node.isContainer = true
            · exact hc
            · rw [truthy_false_of_not_container (by simpa using hc)] at ht
              exact absurd ht (by simp)
          simp only [setGo, hIdx2, Bool.false_eq_true, if_false, ht,
            if_true, specSetErr, hcont]
          refine ⟨(ih _ v).1, fun hne => ?_⟩
          rw [(ih _ v).2 hne]
          exact jvSetKeyT_same rfl (ne_undef_of_truthy ht)
        · have ht2 : (jvGetKey node s).truthy = false := by simpa using ht
          by_cases hcont : node.isContainer = true
          · simp only [setGo, hIdx2, Bool.false_eq_true, if_false, ht2,
              hcont, if_true, specSetErr]
            have hf := setGo_fresh_ok v t2 s2
            simp [hf.1]
          · have hcont2 : node.isContainer = false := by simpa using hcont
            simp [setGo, specSetErr, hIdx2, ht2, hcont2]

end SetErrorCharacterisation

section ClassificationLemmas

theorem natToStr_data (n : Nat) : (natToStr n).data = natDigits n := rfl

theorem natToStr_ne_empty (n : Nat) : natToStr n ≠ "" := by
  intro h
  have h2 : natDigits n = [] := congrArg String.data h
  exact natDigitsAux_ne_nil (Nat.lt_succ_self n) h2

theorem natToStr_ne_of_head {n : Nat} {t : String}
    (hmem : ∀ c ∈ t.data, ¬('0' ≤ c ∧ c ≤ '9')) (ht : t.data ≠ []) :
    natToStr n ≠ t := by
  intro h
  have h2 : natDigits n = t.data := congrArg String.data h
  cases hd : t.data with
  | nil => exact ht hd
  | cons c cs =>
    have hbeen : c ∈ natDigits n := by rw [h2, hd]; exact List.mem_cons_self c cs
    have := mem_natDigits_isDigit n c hbeen
    exact hmem c (by rw [hd]; exact List.mem_cons_self c cs) this

theorem jsToNumber_natToStr (n : Nat) : jsToNumber (natToStr n) = .int n := by
  have hne := natToStr_ne_empty n
  have hInf : natToStr n ≠ "Infinity" :=
    natToStr_ne_of_head (by decide) (by decide)
  have hPInf : natToStr n ≠ "+Infinity" :=
    natToStr_ne_of_head (by decide) (by decide)
  have hNInf : natToStr n ≠ "-Infinity" :=
    natToStr_ne_of_head (by decide) (by decide)
  unfold jsToNumber
  simp only [hne, hInf, hPInf, hNInf, if_false]
  split
  · next cs heq =>
    exfalso
    have : '+' ∈ natDigits n := by
      rw [show natDigits n = '+' :: cs from heq]
      exact List.mem_cons_self _ _
    have := mem_natDigits_isDigit n '+' this
    revert this; decide
  · next cs heq =>
    exfalso
    have : '-' ∈ natDigits n := by
      rw [show natDigits n = '-' :: cs from heq]
      exact List.mem_cons_self _ _
    have := mem_natDigits_isDigit n '-' this
    revert this; decide
  · rw [natToStr_data, parseNat_natDigits]
    rfl

theorem jsToNumber_jsNumToString_int (m : Int) :
    jsToNumber (jsNumToString (.int m)) = .int m := by
  by_cases hm : m < 0
  · have hdata : (jsNumToString (.int m)).data
        = '-' :: natDigits m.natAbs := by
      simp [jsNumToString, hm, String.data_append, natToStr_data]
    have hne : jsNumToString (.int m) ≠ "" := by
      intro h
      have h2 := congrArg String.data h
      rw [hdata] at h2
      exact List.noConfusion h2
    have hInf : jsNumToString (.int m) ≠ "Infinity" := by
      intro h
      have h2 := congrArg String.data h
      rw [hdata] at h2
      have h3 : '-' = 'I' := ((List.cons.injEq _ _ _ _).mp h2).1
      revert h3; decide
    have hPInf : jsNumToString (.int m) ≠ "+Infinity" := by
      intro h
      have h2 := congrArg String.data h
      rw [hdata] at h2
      have h3 : '-' = '+' := ((List.cons.injEq _ _ _ _).mp h2).1
      revert h3; decide
    have hNInf : jsNumToString (.int m) ≠ "-Infinity" := by
      intro h
      have h2 := congrArg String.data h
      rw [hdata] at h2
      have h3 := ((List.cons.injEq _ _ _ _).mp h2).2
      have h4 : 'I' ∈ natDigits m.natAbs := by rw [h3]; decide
      have h5 := mem_natDigits_isDigit m.natAbs 'I' h4
      revert h5; decide
    unfold jsToNumber
    simp only [hne, hInf, hPInf, hNInf, if_false]
    split
    · next cs heq =>
      exfalso
      rw [hdata] at heq
      have h3 : '-' = '+' := ((List.cons.injEq _ _ _ _).mp heq).1
      revert h3; decide
    · next cs heq =>
      rw [hdata] at heq
      have h3 := ((List.cons.injEq _ _ _ _).mp heq).2
      rw [← h3, parseNat_natDigits]
      have h4 : -(m.natAbs : Int) = m := by omega
      simp only [Option.elim]
      rw [h4]
    · next hplus hminus =>
      exact absurd hdata (hminus (natDigits m.natAbs))
  · have hm2 : ¬m < 0 := hm
    have habs : (m.natAbs : Int) = m := by omega
    have : jsNumToString (.int m) = natToStr m.natAbs := by
      simp [jsNumToString, hm2]
    rw [this, jsToNumber_natToStr, habs]

theorem specIndexSeg_iff (s : String) :
    specIndexSeg s = true ↔ ∃ n : Nat, s = natToStr n := by
  constructor
  · intro h
    unfold specIndexSeg at h
    split at h
    · next n heq =>
      refine ⟨n, ?_⟩
      have := beq_iff_eq.mp h
      exact this.symm
    · exact absurd h (by simp)
  · rintro ⟨n, rfl⟩
    unfold specIndexSeg
    rw [natToStr_data, parseNat_natDigits]
    simp

theorem isIndex_characterisation (s : String) :
    isIndex s = true ↔
      specIndexSeg s = true ∨
      (∃ m : Int, m < 0 ∧ s = jsNumToString (.int m)) ∨
      s = "NaN" ∨ s = "Infinity" ∨ s = "-Infinity" := by
  constructor
  · intro h
    have heq : jsNumToString (jsToNumber s) = s := beq_iff_eq.mp h
    cases hnum : jsToNumber s with
    | nan => rw [hnum] at heq; right; right; left; exact heq.symm
    | inf => rw [hnum] at heq; right; right; right; left; exact heq.symm
    | negInf =>
      rw [hnum] at heq; right; right; right; right; exact heq.symm
    | int m =>
      rw [hnum] at heq
      by_cases hm : m < 0
      · exact Or.inr (Or.inl ⟨m, hm, heq.symm⟩)
      · left
        rw [specIndexSeg_iff]
        refine ⟨m.natAbs, ?_⟩
        rw [← heq]
        simp [jsNumToString, hm]
  · intro h
    rcases h with h | ⟨m, _, rfl⟩ | rfl | rfl | rfl
    · rw [specIndexSeg_iff] at h
      obtain ⟨n, rfl⟩ := h
      have h2 : jsToNumber (natToStr n) = .int n := jsToNumber_natToStr n
      unfold isIndex
      rw [h2]
      simp [jsNumToString, natToStr]
    · unfold isIndex
      rw [jsToNumber_jsNumToString_int]
      simp
    · decide
    · decide
    · decide

end ClassificationLemmas

section Descendants

/-- The child values of a node: array elements (holes included) and array
properties for a sequence, property values for a mapping. -/
def childVals : JVal → List JVal
  | .obj ps => ps.map Prod.snd
  | .arr es ps => es ++ ps.map Prod.snd
  | _ => []

theorem sizeOf_lt_of_mem_childVals {v c : JVal} (h : c ∈ childVals v) :
    sizeOf c < sizeOf v := by
  cases v with
  | obj ps =>
    simp only [childVals, List.mem_map] at h
    obtain ⟨p, hp, rfl⟩ := h
    have h1 := List.sizeOf_lt_of_mem hp
    have h2 : sizeOf p.2 < sizeOf p := by
      obtain ⟨a, b⟩ := p
      simp only [Prod.mk.sizeOf_spec]
      omega
    simp only [JVal.obj.sizeOf_spec]
    omega
  | arr es ps =>
    simp only [childVals, List.mem_append, List.mem_map] at h
    rcases h with h | h
    · have h1 := List.sizeOf_lt_of_mem h
      simp only [JVal.arr.sizeOf_spec]
      omega
    · obtain ⟨p, hp, rfl⟩ := h
      have h1 := List.sizeOf_lt_of_mem hp
      have h2 : sizeOf p.2 < sizeOf p := by
        obtain ⟨a, b⟩ := p
        simp only [Prod.mk.sizeOf_spec]
        omega
      simp only [JVal.arr.sizeOf_spec]
      omega
  | null => simp [childVals] at h
  | undef => simp [childVals] at h
  | bool b => simp [childVals] at h
  | num m => simp [childVals] at h
  | str s => simp [childVals] at h

/-- No strict descendant of `v` satisfies `bad`. -/
def descOk (bad : JVal → Bool) (v : JVal) : Bool :=
  (childVals v).attach.all fun c => !bad c.1 && descOk bad c.1
termination_by sizeOf v
decreasing_by exact sizeOf_lt_of_mem_childVals c.2

theorem descOk_iff (bad : JVal → Bool) (v : JVal) :
    descOk bad v = true ↔
      ∀ c ∈ childVals v, bad c = false ∧ descOk bad c = true := by
  constructor
  · intro h c hc
    rw [descOk] at h
    have h2 := List.all_eq_true.mp h ⟨c, hc⟩ (List.mem_attach _ _)
    simpa using h2
  · intro h
    rw [descOk]
    apply List.all_eq_true.mpr
    rintro ⟨c, hc⟩ _
    simpa using h c hc

theorem descOk_leaf {bad : JVal → Bool} {v : JVal}
    (h : childVals v = []) : descOk bad v = true := by
  rw [descOk_iff, h]
  simp

theorem descOk_undef (bad : JVal → Bool) : descOk bad .undef = true :=
  descOk_leaf rfl

end Descendants

section DescMembership

theorem mem_map_snd_of_lookupProp {ps : List (String × JVal)} {k : String}
    {c : JVal} (h : lookupProp ps k = c) (hne : c ≠ .undef) :
    c ∈ ps.map Prod.snd := by
  induction ps with
  | nil => exact absurd h.symm hne
  | cons e t ih =>
    by_cases he : e.1 = k
    · simp only [lookupProp, he, if_true] at h
      simp [← h]
    · simp only [lookupProp, he, if_false] at h
      simp [ih h]

theorem mem_of_getElt {es : List JVal} {i : Nat} {c : JVal}
    (h : getElt es i = c) (hne : c ≠ .undef) : c ∈ es := by
  induction es generalizing i with
  | nil => exact absurd h.symm hne
  | cons e t ih =>
    cases i with
    | zero => simp only [getElt] at h; simp [← h]
    | succ j => simp only [getElt] at h; simp [ih h]

theorem mem_childVals_of_jvGetKey {n : JVal} {k : String} {c : JVal}
    (h : jvGetKey n k = c) (hne : c ≠ .undef) : c ∈ childVals n := by
  cases n with
  | arr es ps =>
    cases hIdx : toArrIdx k with
    | some i =>
      rw [jvGetKey, hIdx] at h
      simp [childVals, mem_of_getElt h hne]
    | none =>
      rw [jvGetKey, hIdx] at h
      simp [childVals, mem_map_snd_of_lookupProp h hne]
  | obj ps =>
    rw [jvGetKey] at h
    simp [childVals, mem_map_snd_of_lookupProp h hne]
  | null => exact absurd h.symm hne
  | undef => exact absurd h.symm hne
  | bool b => exact absurd h.symm hne
  | num m => exact absurd h.symm hne
  | str s => exact absurd h.symm hne

theorem mem_map_snd_delProp {ps : List (String × JVal)} {k : String}
    {c : JVal} (h : c ∈ (delProp ps k).map Prod.snd) :
    c ∈ ps.map Prod.snd := by
  simp only [List.mem_map] at h ⊢
  obtain ⟨p, hp, rfl⟩ := h
  exact ⟨p, List.mem_of_mem_filter hp, rfl⟩

theorem mem_delElt {es : List JVal} {i : Nat} {c : JVal}
    (h : c ∈ delElt es i) : c = .undef ∨ c ∈ es := by
  induction es generalizing i with
  | nil => simp [delElt] at h
  | cons e t ih =>
    cases i with
    | zero =>
      simp only [delElt, List.mem_cons] at h
      rcases h with h | h
      · exact Or.inl h
      · exact Or.inr (by simp [h])
    | succ j =>
      simp only [delElt, List.mem_cons] at h
      rcases h with h | h
      · exact Or.inr (by simp [h])
      · rcases ih h with h2 | h2
        · exact Or.inl h2
        · exact Or.inr (by simp [h2])

theorem mem_map_snd_setProp {ps : List (String × JVal)} {k : String}
    {v c : JVal} (h : c ∈ (setProp ps k v).map Prod.snd) :
    c = v ∨ c ∈ ps.map Prod.snd := by
  induction ps with
  | nil => simp [setProp] at h; exact Or.inl h
  | cons e t ih =>
    by_cases he : e.1 = k
    · simp only [setProp, he, if_true, List.map_cons, List.mem_cons] at h
      rcases h with h | h
      · exact Or.inl h
      · exact Or.inr (by simp [List.mem_cons]; right; simpa using h)
    · simp only [setProp, he, if_false, List.map_cons, List.mem_cons] at h
      rcases h with h | h
      · exact Or.inr (by simp [h])
      · rcases ih h with h2 | h2
        · exact Or.inl h2
        · exact Or.inr (by simp [List.mem_cons]; right; simpa using h2)

theorem mem_setElt {es : List JVal} {i : Nat} {v c : JVal}
    (h : c ∈ setElt es i v) : c = v ∨ c = .undef ∨ c ∈ es := by
  induction es generalizing i with
  | nil =>
    induction i with
    | zero => simp [setElt] at h; exact Or.inl h
    | succ j ihj =>
      simp only [setElt, List.mem_cons] at h
      rcases h with h | h
      · exact Or.inr (Or.inl h)
      · rcases ihj h with h2 | h2 | h2
        · exact Or.inl h2
        · exact Or.inr (Or.inl h2)
        · exact Or.inr (Or.inr h2)
  | cons e t ih =>
    cases i with
    | zero =>
      simp only [setElt, List.mem_cons] at h
      rcases h with h | h
      · exact Or.inl h
      · exact Or.inr (Or.inr (by simp [h]))
    | succ j =>
      simp only [setElt, List.mem_cons] at h
      rcases h with h | h
      · exact Or.inr (Or.inr (by simp [h]))
      · rcases ih h with h2 | h2 | h2
        · exact Or.inl h2
        · exact Or.inr (Or.inl h2)
        · exact Or.inr (Or.inr (by simp [h2]))

theorem mem_childVals_jvSetKeyT {n : JVal} {k : String} {v c : JVal}
    (h : c ∈ childVals (jvSetKeyT n k v)) :
    c = v ∨ c = .undef ∨ c ∈ childVals n := by
  cases n with
  | arr es ps =>
    cases hIdx : toArrIdx k with
    | some i =>
      simp only [jvSetKeyT, jvSetKey, hIdx, Option.getD_some, childVals,
        List.mem_append] at h
      rcases h with h | h
      · rcases mem_setElt h with h2 | h2 | h2
        · exact Or.inl h2
        · exact Or.inr (Or.inl h2)
        · exact Or.inr (Or.inr (by simp [childVals, h2]))
      · exact Or.inr (Or.inr (by simp [childVals, h]))
    | none =>
      simp only [jvSetKeyT, jvSetKey, hIdx, Option.getD_some, childVals,
        List.mem_append] at h
      rcases h with h | h
      · exact Or.inr (Or.inr (by simp [childVals, h]))
      · rcases mem_map_snd_setProp h with h2 | h2
        · exact Or.inl h2
        · exact Or.inr (Or.inr (by simp [childVals, h2]))
  | obj ps =>
    simp only [jvSetKeyT, jvSetKey, Option.getD_some, childVals] at h
    rcases mem_map_snd_setProp h with h2 | h2
    · exact Or.inl h2
    · exact Or.inr (Or.inr (by simp [childVals, h2]))
  | null => exact Or.inr (Or.inr (by simpa [jvSetKeyT, jvSetKey] using h))
  | undef => exact Or.inr (Or.inr (by simpa [jvSetKeyT, jvSetKey] using h))
  | bool b => exact Or.inr (Or.inr (by simpa [jvSetKeyT, jvSetKey] using h))
  | num m => exact Or.inr (Or.inr (by simpa [jvSetKeyT, jvSetKey] using h))
  | str s => exact Or.inr (Or.inr (by simpa [jvSetKeyT, jvSetKey] using h))

theorem mem_childVals_jvDelKey {n : JVal} {k : String} {c : JVal}
    (h : c ∈ childVals (jvDelKey n k)) :
    c = .undef ∨ c ∈ childVals n := by
  cases n with
  | arr es ps =>
    cases hIdx : toArrIdx k with
    | some i =>
      simp only [jvDelKey, hIdx, childVals, List.mem_append] at h
      rcases h with h | h
      · rcases mem_delElt h with h2 | h2
        · exact Or.inl h2
        · exact Or.inr (by simp [childVals, h2])
      · exact Or.inr (by simp [childVals, h])
    | none =>
      simp only [jvDelKey, hIdx, childVals, List.mem_append] at h
      rcases h with h | h
      · exact Or.inr (by simp [childVals, h])
      · exact Or.inr (by simp [childVals, mem_map_snd_delProp h])
  | obj ps =>
    simp only [jvDelKey, childVals] at h
    exact Or.inr (by simp [childVals, mem_map_snd_delProp h])
  | null => exact Or.inr (by simpa [jvDelKey] using h)
  | undef => exact Or.inr (by simpa [jvDelKey] using h)
  | bool b => exact Or.inr (by simpa [jvDelKey] using h)
  | num m => exact Or.inr (by simpa [jvDelKey] using h)
  | str s => exact Or.inr (by simpa [jvDelKey] using h)

theorem delProp_setProp (ps : List (String × JVal)) (k : String) (v : JVal) :
    delProp (setProp ps k v) k = delProp ps k := by
  induction ps with
  | nil => simp [setProp, delProp, List.filter_cons]
  | cons e t ih =>
    by_cases he : e.1 = k
    · simp [setProp, delProp, he, List.filter_cons]
    · simp only [setProp, he, if_false]
      simp only [delProp, ne_eq, decide_not] at ih ⊢
      simp [List.filter_cons, he, ih]

theorem mem_delElt_setElt {es : List JVal} {i : Nat} {v c : JVal}
    (h : c ∈ delElt (setElt es i v) i) : c = .undef ∨ c ∈ es := by
  induction es generalizing i with
  | nil =>
    induction i with
    | zero => simp [setElt, delElt, List.mem_cons] at h; simp [h]
    | succ j ihj =>
      simp only [setElt, delElt, List.mem_cons] at h
      rcases h with h | h
      · exact Or.inl h
      · exact ihj h
  | cons e t ih =>
    cases i with
    | zero =>
      simp only [setElt, delElt, List.mem_cons] at h
      rcases h with h | h
      · exact Or.inl h
      · exact Or.inr (by simp [h])
    | succ j =>
      simp only [setElt, delElt, List.mem_cons] at h
      rcases h with h | h
      · exact Or.inr (by simp [h])
      · rcases ih h with h2 | h2
        · exact Or.inl h2
        · exact Or.inr (by simp [h2])

theorem mem_childVals_jvDelKey_jvSetKeyT {n : JVal} {k : String} {v c : JVal}
    (h : c ∈ childVals (jvDelKey (jvSetKeyT n k v) k)) :
    c = .undef ∨ c ∈ childVals n := by
  cases n with
  | arr es ps =>
    cases hIdx : toArrIdx k with
    | some i =>
      simp only [jvSetKeyT, jvSetKey, hIdx, Option.getD_some, jvDelKey,
        childVals, List.mem_append] at h
      rcases h with h | h
      · rcases mem_delElt_setElt h with h2 | h2
        · exact Or.inl h2
        · exact Or.inr (by simp [childVals, h2])
      · exact Or.inr (by simp [childVals, h])
    | none =>
      simp only [jvSetKeyT, jvSetKey, hIdx, Option.getD_some, jvDelKey,
        delProp_setProp, childVals, List.mem_append] at h
      rcases h with h | h
      · exact Or.inr (by simp [childVals, h])
      · exact Or.inr (by simp [childVals, mem_map_snd_delProp h])
  | obj ps =>
    simp only [jvSetKeyT, jvSetKey, Option.getD_some, jvDelKey,
      delProp_setProp, childVals] at h
    exact Or.inr (by simp [childVals, mem_map_snd_delProp h])
  | null => exact Or.inr (by simpa [jvSetKeyT, jvSetKey, jvDelKey] using h)
  | undef => exact Or.inr (by simpa [jvSetKeyT, jvSetKey, jvDelKey] using h)
  | bool b => exact Or.inr (by simpa [jvSetKeyT, jvSetKey, jvDelKey] using h)
  | num m => exact Or.inr (by simpa [jvSetKeyT, jvSetKey, jvDelKey] using h)
  | str s => exact Or.inr (by simpa [jvSetKeyT, jvSetKey, jvDelKey] using h)

end DescMembership

section DeletePruneInvariant

theorem ne_undef_of_isEmptyObjB {c : JVal} (h : isEmptyObjB c = true) :
    c ≠ .undef := by
  intro he; subst he; simp [isEmptyObjB] at h

theorem delNode_nil_fst (node : JVal) : (delNode [] node).1 = node := by
  by_cases h : node.isNullish = true <;> simp [delNode, h]

theorem delNode_descOk (segs : List String) :
    ∀ node : JVal, descOk isEmptyObjB node = true →
      descOk isEmptyObjB (delNode segs node).1 = true := by
  induction segs with
  | nil => intro node h; rw [delNode_nil_fst]; exact h
  | cons s t ih =>
    cases t with
    | nil =>
      intro node hok
      by_cases hn : node.isNullish = true
      · rw [delNode_nullish hn]; exact hok
      · simp only [Bool.not_eq_true] at hn
        by_cases hc : node.isContainer = true
        · have h1 : (delNode [s] node).1 = jvDelKey node s := by
            simp [delNode, hn, hc]
          rw [h1, descOk_iff]
          intro c hcmem
          rcases mem_childVals_jvDelKey hcmem with rfl | hc2
          · exact ⟨rfl, descOk_undef _⟩
          · exact (descOk_iff _ _).mp hok c hc2
        · have h1 : (delNode [s] node).1 = node := by
            simp [delNode, hn, hc]
          rw [h1]; exact hok
    | cons s2 t2 =>
      intro node hok
      by_cases hn : node.isNullish = true
      · rw [delNode_nullish hn]; exact hok
      · simp only [Bool.not_eq_true] at hn
        rw [delNode_cons_eq s s2 t2 node hn]
        simp only []
        by_cases hA : (delProj node s).isNullish = true
        · rw [delNode_nullish hA]
          simp only [hA, if_true, Bool.true_and]
          have hE : isEmptyObjB (jvGetKey node s) = false := by
            by_cases hE2 : isEmptyObjB (jvGetKey node s) = true
            · have hne : jvGetKey node s ≠ .undef :=
                ne_undef_of_isEmptyObjB hE2
              have hmem := mem_childVals_of_jvGetKey rfl hne
              have h3 := ((descOk_iff _ _).mp hok _ hmem).1
              rw [h3] at hE2
              exact absurd hE2 (by simp)
            · simpa using hE2
          simp only [hE, Bool.false_eq_true, if_false]
          exact hok
        · simp only [Bool.not_eq_true] at hA
          have hproj := delProj_eq_jvGetKey_of_not_nullish hA
          have hcont := isContainer_of_delProj_not_nullish hA
          have hne : delProj node s ≠ .undef := ne_undef_of_not_nullish hA
          have hmem := mem_childVals_of_jvGetKey hproj.symm hne
          have hchild := (descOk_iff _ _).mp hok _ hmem
          have hdesc1 :
              descOk isEmptyObjB (delNode (s2 :: t2) (delProj node s)).1
                = true := ih _ hchild.2
          have hflag := delNode_flag (s2 :: t2) _ hA
          have hget1 :
              jvGetKey
                (jvSetKeyT node s (delNode (s2 :: t2) (delProj node s)).1) s
              = (delNode (s2 :: t2) (delProj node s)).1 :=
            jvGetKey_jvSetKeyT hcont s _
          simp only [hA, Bool.false_eq_true, if_false, hflag, hget1]
          rw [emptinessFlag_and_isEmptyObjB]
          by_cases hE :
              isEmptyObjB (delNode (s2 :: t2) (delProj node s)).1 = true
          · simp only [hE, if_true]
            rw [descOk_iff]
            intro c hc
            rcases mem_childVals_jvDelKey_jvSetKeyT hc with rfl | hc2
            · exact ⟨rfl, descOk_undef _⟩
            · exact (descOk_iff _ _).mp hok c hc2
          · have hE2 :
                isEmptyObjB (delNode (s2 :: t2) (delProj node s)).1
                  = false := by simpa using hE
            simp only [hE2, Bool.false_eq_true, if_false]
            rw [descOk_iff]
            intro c hc
            rcases mem_childVals_jvSetKeyT hc with rfl | rfl | hc2
            · exact ⟨hE2, hdesc1⟩
            · exact ⟨rfl, descOk_undef _⟩
            · exact (descOk_iff _ _).mp hok c hc2

end DeletePruneInvariant

section RemainingHelpers

/-- Test for a (non-array) object value. -/
def JVal.isObjB : JVal → Bool
  | .obj _ => true
  | _ => false

theorem isObjB_jvSetKeyT (n : JVal) (k : String) (v : JVal) :
    (jvSetKeyT n k v).isObjB = n.isObjB := by
  cases n <;> simp [jvSetKeyT, jvSetKey, JVal.isObjB] <;>
    cases toArrIdx k <;> simp [JVal.isObjB]

theorem isArrB_setGo (v : JVal) (segs : List String) (node : JVal) :
    (setGo v segs node).node.isArrB = node.isArrB := by
  match segs with
  | [] => rfl
  | [s] =>
    by_cases hIdx : isIndex s = true
    · cases node <;> simp [setGo, hIdx, isArrB_jvSetKeyT]
    · have hIdx2 : isIndex s = false := by simpa using hIdx
      cases hset : jvSetKey node s v with
      | none => simp [setGo, hIdx2, hset]
      | some m =>
        simp only [setGo, hIdx2, Bool.false_eq_true, if_false, hset]
        rw [← jvSetKeyT_of_jvSetKey hset, isArrB_jvSetKeyT]
  | s :: s2 :: t =>
    by_cases hIdx : isIndex s = true
    · cases node <;>
        simp [setGo, hIdx, isArrB_jvSetKeyT] <;>
        split_ifs <;> simp [isArrB_jvSetKeyT]
    · have hIdx2 : isIndex s = false := by simpa using hIdx
      cases node <;>
        simp [setGo, hIdx2, isArrB_jvSetKeyT, JVal.isContainer] <;>
        split_ifs <;> simp [isArrB_jvSetKeyT]

theorem isObjB_setGo (v : JVal) (segs : List String) (node : JVal) :
    (setGo v segs node).node.isObjB = node.isObjB := by
  match segs with
  | [] => rfl
  | [s] =>
    by_cases hIdx : isIndex s = true
    · cases node <;> simp [setGo, hIdx, isObjB_jvSetKeyT]
    · have hIdx2 : isIndex s = false := by simpa using hIdx
      cases hset : jvSetKey node s v with
      | none => simp [setGo, hIdx2, hset]
      | some m =>
        simp only [setGo, hIdx2, Bool.false_eq_true, if_false, hset]
        rw [← jvSetKeyT_of_jvSetKey hset, isObjB_jvSetKeyT]
  | s :: s2 :: t =>
    by_cases hIdx : isIndex s = true
    · cases node <;>
        simp [setGo, hIdx, isObjB_jvSetKeyT] <;>
        split_ifs <;> simp [isObjB_jvSetKeyT]
    · have hIdx2 : isIndex s = false := by simpa using hIdx
      cases node <;>
        simp [setGo, hIdx2, isObjB_jvSetKeyT, JVal.isContainer] <;>
        split_ifs <;> simp [isObjB_jvSetKeyT]

theorem isContainer_false_of_truthy_false {c : JVal}
    (h : c.truthy = false) : c.isContainer = false := by
  cases c <;> simp_all [JVal.truthy, JVal.isContainer]

theorem splitSegs_ne_nil (cs : List Char) : splitSegs cs ≠ [] := by
  cases cs with
  | nil => simp [splitSegs]
  | cons c rest =>
    simp only [splitSegs]
    split
    · simp
    · split <;> simp

theorem splitPath_ne_nil (p : String) : splitPath p ≠ [] := by
  unfold splitPath
  intro h
  exact splitSegs_ne_nil p.data (List.map_eq_nil.mp h)

theorem delNode_first_absent {node : JVal} {s1 s2 : String}
    {t : List String} (h : (jvGetKey node s1).isNullish = true) :
    (delNode (s1 :: s2 :: t) node).1 = node := by
  by_cases hn : node.isNullish = true
  · rw [delNode_nullish hn]
  · simp only [Bool.not_eq_true] at hn
    rw [delNode_cons_eq s1 s2 t node hn]
    simp only []
    have hA : (delProj node s1).isNullish = true := by
      by_cases hA2 : (delProj node s1).isNullish = true
      · exact hA2
      · rw [delProj_eq_jvGetKey_of_not_nullish (by simpa using hA2)]
        exact h
    rw [delNode_nullish hA]
    simp only [hA, if_true, Bool.true_and]
    have hE : isEmptyObjB (jvGetKey node s1) = false := by
      cases hj : jvGetKey node s1 <;>
        simp_all [JVal.isNullish, isEmptyObjB]
    simp only [hE, Bool.false_eq_true, if_false]

end RemainingHelpers

section ClaimPredicates

/-- Test for the `undefined` value (an array hole). -/
def JVal.isUndefB : JVal → Bool
  | .undef => true
  | _ => false

/-- Emptiness of a container in the sense of the specification's post-delete
invariant: a mapping with no properties, or a sequence with no present
elements and no properties. -/
def claimEmptyContainer : JVal → Bool
  | .obj ps => ps.isEmpty
  | .arr es ps => es.all JVal.isUndefB && ps.isEmpty
  | _ => false

/-- Formalisation of the claimed post-delete invariant: no empty mapping or
empty sequence occurs strictly below the root. -/
def noEmptyContainerBelow (v : JVal) : Bool := descOk claimEmptyContainer v

/-- The invariant the code actually maintains: no empty mapping occurs
strictly below the root. -/
def noEmptyMappingBelow (v : JVal) : Bool := descOk isEmptyObjB v

theorem isContainer_eq_or (n : JVal) :
    n.isContainer = (n.isArrB || n.isObjB) := by
  cases n <;> rfl

end ClaimPredicates

section Claims

/-- C1 (counterexample): the round-trip claim is false as stated, because it
quantifies over every path.  For the root `{}` and the path `"0.x"` the
first segment is a non-terminal index segment over a mapping, so `set`
raises the structural-conflict error and leaves the root untouched; `get`
then yields `undefined`, not the written value. -/
theorem roundtrip_claim_counterexample :
    (setIn (.obj []) "0.x" (.str "x")).err = some conflictMsg ∧
    getIn (setIn (.obj []) "0.x" (.str "x")).node "0.x" = .undef ∧
    JVal.undef ≠ JVal.str "x" := by
  refine ⟨rfl, rfl, fun h => JVal.noConfusion h⟩

/-- C1 (amended): for every root `R`, path `P` and value `v`, if
`set(R, P, v)` completes without raising and the final write is not the
silently-discarded terminal case (an index final segment reaching a
non-sequence container), then `get(R, P)` on the mutated root yields `v`. -/
theorem roundtrip_after_stable_set (R : JVal) (P : String) (v : JVal)
    (herr : (setIn R P v).err = none)
    (hdrop : (setIn R P v).dropped = false) :
    getIn (setIn R P v).node P = v :=
  setGo_roundtrip (splitPath P) R v (splitPath_ne_nil P) herr hdrop

/-- Witness for C1's amended theorem at a concrete input. -/
theorem roundtrip_after_stable_set_witness :
    (setIn (.obj []) "user.name" (.str "Jane")).err = none ∧
    (setIn (.obj []) "user.name" (.str "Jane")).dropped = false ∧
    getIn (setIn (.obj []) "user.name" (.str "Jane")).node "user.name"
      = .str "Jane" :=
  ⟨rfl, rfl, roundtrip_after_stable_set (.obj []) "user.name" (.str "Jane")
    rfl rfl⟩

/-- C2: at the final segment, an index write whose current container is not
a sequence goes into a freshly created array bound to the rebound local
`current`, which is never attached to the root: `setIn({}, "0", "x")`
returns the root unchanged and without error, the `dropped` flag records
the lost write, and a subsequent `getIn` yields `undefined` — contradicting
the claim that the fresh sequence is reachable from the root and holds the
value at that index. -/
theorem terminal_index_write_discarded :
    (setIn (.obj []) "0" (.str "x")).node = .obj [] ∧
    (setIn (.obj []) "0" (.str "x")).err = none ∧
    (setIn (.obj []) "0" (.str "x")).dropped = true ∧
    getIn (.obj []) "0" = .undef :=
  ⟨rfl, rfl, rfl, rfl⟩

/-- C3 (counterexample): the claimed post-delete invariant is false as
stated.  Deleting `"a.0"` in `{a: [1]}` leaves the emptied sequence under
`a` (sequences are never pruned), and deleting `"b"` in `{x: {}, b: 1}`
leaves the pre-existing empty mapping under `x`: in both results an empty
container is present below the root. -/
theorem delete_empty_invariant_counterexample :
    noEmptyContainerBelow
      ((deleteIn (.obj [("a", .arr [.num 1] [])]) "a.0").1) = false ∧
    noEmptyContainerBelow
      ((deleteIn (.obj [("x", .obj []), ("b", .num 1)]) "b").1) = false := by
  constructor
  · have h1 : (deleteIn (.obj [("a", .arr [.num 1] [])]) "a.0").1
        = .obj [("a", .arr [.undef] [])] := rfl
    rw [h1, noEmptyContainerBelow]
    apply Bool.eq_false_iff.mpr
    intro h
    have h2 := (descOk_iff _ _).mp h (.arr [.undef] [])
      (by simp [childVals])
    have h3 := h2.1
    simp [claimEmptyContainer, JVal.isUndefB] at h3
  · have h1 : (deleteIn (.obj [("x", .obj []), ("b", .num 1)]) "b").1
        = .obj [("x", .obj [])] := rfl
    rw [h1, noEmptyContainerBelow]
    apply Bool.eq_false_iff.mpr
    intro h
    have h2 := (descOk_iff _ _).mp h (.obj []) (by simp [childVals])
    have h3 := h2.1
    simp [claimEmptyContainer] at h3

/-- C3 (amended): the invariant the delete-and-prune pass actually
maintains concerns mappings only, and pre-existing empty mappings are kept:
if no empty mapping occurs strictly below the root before a delete, none
occurs after it — every mapping the delete empties is recursively collapsed
and the root itself is never removed, while emptied sequences may remain. -/
theorem delete_preserves_no_empty_mapping (R : JVal) (P : String)
    (h : noEmptyMappingBelow R = true) :
    noEmptyMappingBelow (deleteIn R P).1 = true :=
  delNode_descOk (splitPath P) R h

/-- Witness for C3's amended theorem at a concrete input. -/
theorem delete_preserves_no_empty_mapping_witness :
    noEmptyMappingBelow (.obj [("b", .num 1)]) = true ∧
    noEmptyMappingBelow (deleteIn (.obj [("b", .num 1)]) "b").1 = true := by
  have h : noEmptyMappingBelow (.obj [("b", .num 1)]) = true := by
    rw [noEmptyMappingBelow, descOk_iff]
    intro c hc
    simp [childVals] at hc
    subst hc
    exact ⟨rfl, descOk_leaf rfl⟩
  exact ⟨h, delete_preserves_no_empty_mapping (.obj [("b", .num 1)]) "b" h⟩

/-- C4: the recursive delete step reports `false` for every sequence, no
matter what was deleted inside it, so sequences are never pruned; deleting
`"a.0"` and then `"a.1"` in `{a: [1, 2]}` retains `a` as a sequence with
both slots removed (two holes, no present element) rather than removing
it. -/
theorem sequences_never_pruned :
    (∀ (segs : List String) (es : List JVal)
        (ps : List (String × JVal)),
      (delNode segs (.arr es ps)).2 = false) ∧
    (deleteIn (deleteIn (.obj [("a", .arr [.num 1, .num 2] [])])
        "a.0").1 "a.1").1
      = .obj [("a", .arr [.undef, .undef] [])] ∧
    [JVal.undef, JVal.undef].all JVal.isUndefB = true := by
  refine ⟨?_, rfl, rfl⟩
  intro segs es ps
  rw [delNode_flag segs (.arr es ps) rfl]
  have harr : (delNode segs (.arr es ps)).1.isArrB = true := by
    rw [isArrB_delNode]; rfl
  cases h2 : (delNode segs (.arr es ps)).1 <;>
    simp_all [JVal.isArrB, emptinessFlag]

/-- C5 (counterexample): the classification claim is false as stated:
`"-1"` is not the canonical decimal string of a non-negative integer, yet
`String(+"-1") === "-1"` holds, so the code classifies it as an index
segment. -/
theorem segment_classification_counterexample :
    isIndex "-1" = true ∧ specIndexSeg "-1" = false := by
  constructor <;> decide

/-- C5 (amended): for every segment of at most 15 characters that does not
contain the letter `e` — the restriction excludes the float64 artefacts,
namely exponent-form numerals such as `"1e+21"` (which the code classifies
as index segments) and numerals of 16 or more digits (where float64
rounding decides the comparison) — the segment is classified as an index
segment iff it is the canonical decimal representation of an integer:
non-negative (the specification's own classifier) or negative such as
`"-1"`, or one of the special numeric strings `"NaN"`, `"Infinity"`,
`"-Infinity"`.  Non-canonical numerals such as `"01"` remain key
segments. -/
theorem segment_classification_characterised (s : String)
    (hlen : s.length ≤ 15) (he : 'e' ∉ s.data) :
    isIndex s = true ↔
      specIndexSeg s = true ∨
      (∃ m : Int, m < 0 ∧ s = jsNumToString (.int m)) ∨
      s = "NaN" ∨ s = "Infinity" ∨ s = "-Infinity" :=
  isIndex_characterisation s

/-- Witness for C5's amended theorem at the concrete segment `"-1"`. -/
theorem segment_classification_characterised_witness :
    isIndex "-1" = true ↔
      specIndexSeg "-1" = true ∨
      (∃ m : Int, m < 0 ∧ "-1" = jsNumToString (.int m)) ∨
      "-1" = "NaN" ∨ "-1" = "Infinity" ∨ "-1" = "-Infinity" :=
  segment_classification_characterised "-1" (by decide) (by decide)

/-- C6 (counterexample): the claim that `set` raises only on a non-terminal
index segment over a non-sequence container is false: writing through the
leaf `5` at the key path `"a.b"` (no index segment anywhere) raises the
strict-mode type error. -/
theorem set_error_only_conflict_counterexample :
    splitPath "a.b" = ["a", "b"] ∧
    isIndex "a" = false ∧ isIndex "b" = false ∧
    (setIn (.obj [("a", .num 5)]) "a.b" (.str "x")).err
      = some typeErrorMsg ∧
    typeErrorMsg ≠ conflictMsg := by
  refine ⟨rfl, by decide, by decide, rfl, by decide⟩

/-- C6 (amended): `set` raises exactly as classified by the spec-side walk
`specSetErr`: the structural-conflict error at a non-terminal index segment
whose current container is present and not a sequence, or a type error when
a property write reaches a leaf; the raising behaviour depends only on the
pre-existing data and the path, and whenever `set` raises it aborts having
applied nothing — the root is returned unchanged (a conflict is always
detected before any container has been created, so no created container can
be lost, vacuously satisfying the no-rollback clause). -/
theorem set_error_characterised (R : JVal) (P : String) (v : JVal) :
    (setIn R P v).err = specSetErr (splitPath P) R ∧
    ((setIn R P v).err ≠ none → (setIn R P v).node = R) :=
  setGo_err_spec (splitPath P) R v

/-- Witness for C6's amended theorem at a concrete input on which `set`
does raise. -/
theorem set_error_characterised_witness :
    (setIn (.obj [("items", .obj [("foo", .num 1)])]) "items.0.name"
        (.str "x")).err
      = specSetErr (splitPath "items.0.name")
          (.obj [("items", .obj [("foo", .num 1)])]) ∧
    (setIn (.obj [("items", .obj [("foo", .num 1)])]) "items.0.name"
        (.str "x")).node
      = .obj [("items", .obj [("foo", .num 1)])] := by
  have h := set_error_characterised
    (.obj [("items", .obj [("foo", .num 1)])]) "items.0.name" (.str "x")
  refine ⟨h.1, h.2 ?_⟩
  have he : (setIn (.obj [("items", .obj [("foo", .num 1)])]) "items.0.name"
      (.str "x")).err = some conflictMsg := rfl
  rw [he]
  exact fun hcon => Option.noConfusion hcon

/-- C7 (counterexample): an absent-path delete is not always a no-op on the
root: deleting `"a.b.c"` in `{a: {}}` reaches `undefined` at the second
step (the walk's base case), yet the pruning pass removes the pre-existing
empty mapping under `a`, changing the root to `{}`. -/
theorem absent_path_delete_counterexample :
    jvGetKey (jvGetKey (.obj [("a", .obj [])]) "a") "b" = .undef ∧
    (deleteIn (.obj [("a", .obj [])]) "a.b.c").1 = .obj [] ∧
    JVal.obj [] ≠ .obj [("a", .obj [])] := by
  refine ⟨rfl, rfl, ?_⟩
  intro h
  simp at h

/-- C7 (amended): an absent-path delete raises nothing and the recursion
treats a nullish subtree as already empty (the base case returns `true` for
both `undefined` and `null`); the root is left unchanged whenever already
the first step of the walk addresses no existing node — when the walk only
becomes absent deeper down, already-empty mappings on the walked prefix may
still be pruned. -/
theorem absent_path_delete_amended (R : JVal) (P : String)
    (s1 s2 : String) (t : List String)
    (hsplit : splitPath P = s1 :: s2 :: t)
    (habs : (jvGetKey R s1).isNullish = true) :
    (deleteIn R P).1 = R ∧
    delNode (splitPath P) .undef = (.undef, true) ∧
    delNode (splitPath P) .null = (.null, true) := by
  refine ⟨?_, delNode_nullish (show JVal.undef.isNullish = true from rfl) _,
    delNode_nullish (show JVal.null.isNullish = true from rfl) _⟩
  rw [deleteIn, hsplit]
  exact delNode_first_absent habs

/-- Witness for C7's amended theorem at a concrete input. -/
theorem absent_path_delete_amended_witness :
    (deleteIn (.obj [("b", .num 1)]) "a.x").1 = .obj [("b", .num 1)] :=
  (absent_path_delete_amended (.obj [("b", .num 1)]) "a.x" "a" "x" []
    rfl rfl).1

/-- C8: deleting the same path twice leaves the root exactly as it was
after the first delete — the second run finds the addressed slot already
removed (or the same unprunable state) and changes nothing. -/
theorem delete_idempotent (R : JVal) (P : String) :
    (deleteIn (deleteIn R P).1 P).1 = (deleteIn R P).1 :=
  delNode_idem (splitPath P) R

/-- C9: at a non-terminal segment whose addressed child is missing, `set`
creates the child with the kind determined by the classification of the
next segment — a sequence iff the next segment is an index segment, a
mapping otherwise — for a mapping parent at a key segment and for a
sequence parent at an index segment alike; concretely
`set({}, "items.0.name", "x")` yields `{items: [{name: "x"}]}`. -/
theorem lookahead_vivification :
    (∀ (ps : List (String × JVal)) (s s2 : String) (t : List String)
        (v : JVal),
      isIndex s = false → jvGetKey (.obj ps) s = .undef →
        jvGetKey (setGo v (s :: s2 :: t) (.obj ps)).node s
            = (setGo v (s2 :: t)
                (if isIndex s2 then .arr [] [] else .obj [])).node ∧
          (jvGetKey (setGo v (s :: s2 :: t) (.obj ps)).node s).isArrB
            = isIndex s2 ∧
          (jvGetKey (setGo v (s :: s2 :: t) (.obj ps)).node s).isObjB
            = !isIndex s2) ∧
    (∀ (es : List JVal) (aps : List (String × JVal)) (s s2 : String)
        (t : List String) (v : JVal),
      isIndex s = true → jvGetKey (.arr es aps) s = .undef →
        jvGetKey (setGo v (s :: s2 :: t) (.arr es aps)).node s
            = (setGo v (s2 :: t)
                (if isIndex s2 then .arr [] [] else .obj [])).node ∧
          (jvGetKey (setGo v (s :: s2 :: t) (.arr es aps)).node s).isArrB
            = isIndex s2) ∧
    (setIn (.obj []) "items.0.name" (.str "x")).node
      = .obj [("items", .arr [.obj [("name", .str "x")]] [])] := by
  refine ⟨?_, ?_, rfl⟩
  · intro ps s s2 t v hIdx hmiss
    have ht : (jvGetKey (.obj ps) s).truthy = false := by
      rw [hmiss]; rfl
    have hres : (setGo v (s :: s2 :: t) (.obj ps)).node
        = jvSetKeyT (.obj ps) s
            (setGo v (s2 :: t)
              (if isIndex s2 then .arr [] [] else .obj [])).node := by
      simp [setGo, hIdx, ht, JVal.isContainer]
    have hget : jvGetKey (setGo v (s :: s2 :: t) (.obj ps)).node s
        = (setGo v (s2 :: t)
            (if isIndex s2 then .arr [] [] else .obj [])).node := by
      rw [hres]
      exact jvGetKey_jvSetKeyT
        (show (JVal.obj ps).isContainer = true from rfl) s _
    refine ⟨hget, ?_, ?_⟩
    · rw [hget, isArrB_setGo]
      by_cases h2 : isIndex s2 = true <;> simp [h2, JVal.isArrB]
    · rw [hget, isObjB_setGo]
      by_cases h2 : isIndex s2 = true <;> simp [h2, JVal.isObjB]
  · intro es aps s s2 t v hIdx hmiss
    have ht : (jvGetKey (.arr es aps) s).truthy = false := by
      rw [hmiss]; rfl
    have hres : (setGo v (s :: s2 :: t) (.arr es aps)).node
        = jvSetKeyT (.arr es aps) s
            (setGo v (s2 :: t)
              (if isIndex s2 then .arr [] [] else .obj [])).node := by
      simp [setGo, hIdx, ht]
    have hget : jvGetKey (setGo v (s :: s2 :: t) (.arr es aps)).node s
        = (setGo v (s2 :: t)
            (if isIndex s2 then .arr [] [] else .obj [])).node := by
      rw [hres]
      exact jvGetKey_jvSetKeyT
        (show (JVal.arr es aps).isContainer = true from rfl) s _
    refine ⟨hget, ?_⟩
    rw [hget, isArrB_setGo]
    by_cases h2 : isIndex s2 = true <;> simp [h2, JVal.isArrB]

/-- Witness for C9 at a concrete input. -/
theorem lookahead_vivification_witness :
    jvGetKey (setGo (.str "x") ["items", "0", "name"] (.obj [])).node "items"
      = (setGo (.str "x") ["0", "name"] (.arr [] [])).node ∧
    (jvGetKey (setGo (.str "x") ["items", "0", "name"]
        (.obj [])).node "items").isArrB = isIndex "0" := by
  have h := lookahead_vivification.1 [] "items" "0" ["name"] (.str "x")
    (by decide) rfl
  exact ⟨h.1, h.2.1⟩

/-- C10: at a non-terminal key segment, a present but falsy child (`0`,
`""`, `false` — and likewise `null`) is treated exactly like an absent one:
the slot is overwritten with a freshly created empty container chosen by
look-ahead, so the previously stored leaf value is destroyed by the write;
concretely `set({a: 0}, "a.b", "x")` yields `{a: {b: "x"}}`, losing the
stored `0`. -/
theorem falsy_child_destroyed :
    (∀ (ps : List (String × JVal)) (s s2 : String) (t : List String)
        (v c : JVal),
      isIndex s = false → jvGetKey (.obj ps) s = c → c.truthy = false →
        (setGo v (s :: s2 :: t) (.obj ps)).node
            = jvSetKeyT (.obj ps) s
                (setGo v (s2 :: t)
                  (if isIndex s2 then .arr [] [] else .obj [])).node ∧
          (jvGetKey (setGo v (s :: s2 :: t) (.obj ps)).node s).isContainer
            = true ∧
          c.isContainer = false ∧
          jvGetKey (setGo v (s :: s2 :: t) (.obj ps)).node s ≠ c) ∧
    (setIn (.obj [("a", .num 0)]) "a.b" (.str "x")).node
      = .obj [("a", .obj [("b", .str "x")])] := by
  refine ⟨?_, rfl⟩
  intro ps s s2 t v c hIdx hgetc hfalsy
  have ht : (jvGetKey (.obj ps) s).truthy = false := by
    rw [hgetc]; exact hfalsy
  have hres : (setGo v (s :: s2 :: t) (.obj ps)).node
      = jvSetKeyT (.obj ps) s
          (setGo v (s2 :: t)
            (if isIndex s2 then .arr [] [] else .obj [])).node := by
    simp [setGo, hIdx, ht, JVal.isContainer]
  have hget : jvGetKey (setGo v (s :: s2 :: t) (.obj ps)).node s
      = (setGo v (s2 :: t)
          (if isIndex s2 then .arr [] [] else .obj [])).node := by
    rw [hres]
    exact jvGetKey_jvSetKeyT
      (show (JVal.obj ps).isContainer = true from rfl) s _
  have hcontc : c.isContainer = false :=
    isContainer_false_of_truthy_false hfalsy
  have hcont : (jvGetKey (setGo v (s :: s2 :: t) (.obj ps)).node s
      ).isContainer = true := by
    rw [hget, isContainer_eq_or, isArrB_setGo, isObjB_setGo]
    by_cases h2 : isIndex s2 = true <;>
      simp [h2, JVal.isArrB, JVal.isObjB]
  refine ⟨hres, hcont, hcontc, ?_⟩
  intro heq
  rw [heq, hcontc] at hcont
  exact Bool.noConfusion hcont

/-- Witness for C10 at a concrete input. -/
theorem falsy_child_destroyed_witness :
    (setGo (.str "x") ["a", "b"] (.obj [("a", .num 0)])).node
      = jvSetKeyT (.obj [("a", .num 0)]) "a"
          (setGo (.str "x") ["b"]
            (if isIndex "b" then .arr [] [] else .obj [])).node ∧
    jvGetKey (setGo (.str "x") ["a", "b"]
        (.obj [("a", .num 0)])).node "a" ≠ .num 0 := by
  have h := falsy_child_destroyed.1 [("a", .num 0)] "a" "b" [] (.str "x")
    (.num 0) (by decide) rfl rfl
  exact ⟨h.1, h.2.2.2⟩

end Claims
